import Mathlib

/-!
Verification of the `xssuccessor.py` scanning engine against its
natural-language specification.  The Python source is shallowly embedded:
pure fragments become Lean functions on `List Char` / `Nat` / `ℚ`, the
stateful loops become explicit folds over state records, and real time is
modelled by rational timestamps.
-/

set_option maxHeartbeats 1000000

/-- Shorthand: the character list of a string literal. -/
def chars (s : String) : List Char := s.toList

/-! ### Alert validator classification (`XSSScanner.validate_alert`)

From the tail of `validate_alert`: `xss_type` starts as `'unknown'` and is
rewritten only when `alert_triggered`; the if/elif chain gives
both / reflected / dom / reflected-by-default. -/

/-- The classification chain of `validate_alert` (source lines 1219-1229). -/
def classifyXss (alertTriggered isReflected domDetected : Bool) : List Char :=
  if alertTriggered then
    if isReflected && domDetected then chars "both"
    else if isReflected then chars "reflected"
    else if domDetected then chars "dom"
    else chars "reflected"
  else chars "unknown"

/-- The triple returned by `validate_alert` on its non-exception path
(source line 1231): `(alert_triggered, alert_text, xss_type)`. -/
def validateAlertReturn (alertTriggered isReflected domDetected : Bool)
    (alertText : List Char) : Bool × List Char × List Char :=
  (alertTriggered, alertText, classifyXss alertTriggered isReflected domDetected)

/-! ### Recording a finding (`record_vulnerability` and its call site) -/

/-- The record dict built by `record_vulnerability` (source lines 1246-1254). -/
structure Finding where
  timestamp : List Char
  domain : List Char
  parameter : List Char
  payload : List Char
  url : List Char
  alertText : List Char
  xtype : List Char
deriving DecidableEq, Repr

/-- `record_vulnerability`: stores its `xss_type` argument unchanged in the
`"type"` field of the result record (source lines 1242-1254). -/
def recordVulnerability (timestamp domain param payload url alertText
    xss_type : List Char) : Finding :=
  { timestamp := timestamp, domain := domain, parameter := param,
    payload := payload, url := url, alertText := alertText, xtype := xss_type }

/-- The label computed at the call site in `process_parameter_payloads`
(source line 1339): `"DOM Based" if xss_type == "dom" else "Reflected"`. -/
def typeLabel (xss_type : List Char) : List Char :=
  if xss_type = chars "dom" then chars "DOM Based" else chars "Reflected"

/-- Source lines 1334-1364: a finding is recorded only when
`alert_triggered`, and the recorded type is `type_label`, not the
validator's `xss_type`. -/
def processAlertResult (timestamp domain param payload testUrl : List Char)
    (r : Bool × List Char × List Char) : Option Finding :=
  if r.1 then
    some (recordVulnerability timestamp domain param payload testUrl r.2.1
      (typeLabel r.2.2))
  else none

/-! ### Per-payload attempt loop (`process_parameter_payloads`) -/

/-- The counters touched by one payload attempt, plus the progress total and
the number of browser-context borrows (source lines 1283-1397). -/
structure ScanStats where
  payloadsTested : Nat
  successfulPayloads : Nat
  failedPayloads : Nat
  errors : Nat
  progress : Nat
  pagesBorrowed : Nat
  findings : Nat
deriving DecidableEq, Repr

/-- The all-zero counter state. -/
def statsZero : ScanStats := ⟨0, 0, 0, 0, 0, 0, 0⟩

/-- The five ways one payload attempt can end in `process_parameter_payloads`:
non-200 response (lines 1307-1311), no reflection and no DOM hint
(lines 1318-1323), browser-confirmed alert (lines 1334-1371), browser check
without alert (lines 1372-1376), exception (lines 1381-1390). -/
inductive AttemptOutcome where
  | non200
  | noHint
  | confirmed
  | noAlert
  | errored
deriving DecidableEq, Repr

/-- Effect of one payload attempt on the counters.  `payloads_tested` is
always incremented first (lines 1301-1302); `remaining` is the number of
payloads after the current one, used only by the confirmed branch
(lines 1367-1370). -/
def attemptStep (o : AttemptOutcome) (remaining : Nat) (s : ScanStats) : ScanStats :=
  let s := { s with payloadsTested := s.payloadsTested + 1 }
  match o with
  | .non200 => { s with progress := s.progress + 1 }
  | .noHint => { s with failedPayloads := s.failedPayloads + 1,
                        progress := s.progress + 1 }
  | .confirmed => { s with pagesBorrowed := s.pagesBorrowed + 1,
                           successfulPayloads := s.successfulPayloads + 1,
                           findings := s.findings + 1,
                           progress := s.progress + (1 + remaining) }
  | .noAlert => { s with pagesBorrowed := s.pagesBorrowed + 1,
                         failedPayloads := s.failedPayloads + 1,
                         progress := s.progress + 1 }
  | .errored => { s with errors := s.errors + 1, progress := s.progress + 1 }

/-- The `for payload in self.payloads` loop: payloads in load order, `break`
after the first confirmed alert.  Returns the final counters and the number
of payloads attempted. -/
def runPayloadLoop : List AttemptOutcome → ScanStats → ScanStats × Nat
  | [], s => (s, 0)
  | o :: rest, s =>
    match o with
    | .confirmed => (attemptStep .confirmed rest.length s, 1)
    | o' =>
      let r := runPayloadLoop rest (attemptStep o' 0 s)
      (r.1, r.2 + 1)

/-- The payload list `os` confirms first at 1-based index `k`: no confirmed
alert among the first `k-1` outcomes, and outcome `k` is confirmed. -/
def firstConfirmedAt (os : List AttemptOutcome) (k : Nat) : Prop :=
  1 ≤ k ∧ (∀ o ∈ os.take (k - 1), o ≠ .confirmed) ∧
    os.get? (k - 1) = some .confirmed

/-! ### Rate limiter (`RateLimiter`, source lines 1922-1948)

Time is modelled by rational timestamps; the mutex serialises the bodies of
`acquire`, so one call is one atomic step that may also sleep. -/

/-- The mutable fields of `RateLimiter`: `self.tokens` and
`self.last_update`. -/
structure RLState where
  tokens : ℚ
  lastUpdate : ℚ
deriving DecidableEq, Repr

/-- `RateLimiter.__init__`: a full bucket. -/
def rlInit (rate : ℚ) (now : ℚ) : RLState := ⟨rate, now⟩

/-- `self._sleep_time = 1.0 / rate_limit if rate_limit > 0 else 0`. -/
def rlSleepTime (rate : ℚ) : ℚ := if 0 < rate then 1 / rate else 0

/-- One serialised execution of `acquire()` at time `now`: refill capped at
`rate` and stamp `last_update`; if fewer than one token, sleep
`_sleep_time`, set tokens to `1`, debit; else just debit.  Returns the new
state and the slept duration. -/
def rlAcquire (rate : ℚ) (now : ℚ) (st : RLState) : RLState × ℚ :=
  let timePassed := now - st.lastUpdate
  let tokens1 := min rate (st.tokens + timePassed * rate)
  if tokens1 < 1 then
    ({ tokens := 1 - 1, lastUpdate := now }, rlSleepTime rate)
  else
    ({ tokens := tokens1 - 1, lastUpdate := now }, 0)

/-- `RateLimiter.reset`: full capacity, fresh epoch. -/
def rlReset (rate : ℚ) (now : ℚ) : RLState := ⟨rate, now⟩

/-- Serialised timed execution: each caller requests at its own time, but the
mutex makes it run at `max request prevCompletion`; a sleeping call holds the
lock for the slept duration.  Returns the completion times. -/
def rlRun (rate : ℚ) : List ℚ → RLState → ℚ → List ℚ
  | [], _, _ => []
  | req :: rest, st, prev =>
    let start := max req prev
    let step := rlAcquire rate start st
    let completion := start + step.2
    completion :: rlRun rate rest step.1 completion

/-! ### Telegram notification escaping (`send_telegram_notification`) -/

/-- Python `str.replace` with a one-character pattern. -/
def replaceChar (c : Char) (r : List Char) : List Char → List Char
  | [] => []
  | x :: xs => (if x = c then r else [x]) ++ replaceChar c r xs

/-- The escaping chain of `send_telegram_notification` (source lines
887-891), in source order: `<`, `>`, `&`, `"`, `'`. -/
def telegramEscape (m : List Char) : List Char :=
  replaceChar '\'' (chars "&#39;")
    (replaceChar '"' (chars "&quot;")
      (replaceChar '&' (chars "&amp;")
        (replaceChar '>' (chars "&gt;")
          (replaceChar '<' (chars "&lt;") m))))

/-- Standard one-pass HTML escaping as the specification describes it: each
special character escaped exactly once, the `&` introduced by escaping never
re-escaped.  (Stated from the spec for comparison with `telegramEscape`.) -/
def claimedHtmlEscapeChar (c : Char) : List Char :=
  if c = '&' then chars "&amp;"
  else if c = '<' then chars "&lt;"
  else if c = '>' then chars "&gt;"
  else if c = '"' then chars "&quot;"
  else if c = '\'' then chars "&#39;"
  else [c]

/-- One-pass escaping of a whole message, per the spec's words. -/
def claimedHtmlEscape (m : List Char) : List Char :=
  m.flatMap claimedHtmlEscapeChar

/-- What the code actually does to a single character, obtained by composing
the five replacement passes: the `&` introduced by the `<` and `>` passes is
re-escaped by the later `&` pass. -/
def telegramEscapeChar (c : Char) : List Char :=
  if c = '<' then chars "&amp;lt;"
  else if c = '>' then chars "&amp;gt;"
  else if c = '&' then chars "&amp;"
  else if c = '"' then chars "&quot;"
  else if c = '\'' then chars "&#39;"
  else [c]

/-! ### URL parsing: model of `urllib.parse` as used by the scanner -/

/-- Split a list at the first occurrence of `c`: `some (before, after)`
when `c` occurs, `none` otherwise. -/
def breakAtChar (c : Char) : List Char → Option (List Char × List Char)
  | [] => none
  | x :: xs =>
    if x = c then some ([], xs)
    else
      match breakAtChar c xs with
      | none => none
      | some p => some (x :: p.1, p.2)

/-- Everything before the first `c` (the whole list when `c` is absent):
Python `s.split(c)[0]`. -/
def upToFirst (c : Char) (s : List Char) : List Char :=
  match breakAtChar c s with
  | some p => p.1
  | none => s

/-- Python `s.split(c, 1)` for a separator that may be absent:
`(before, after-or-empty)`. -/
def splitFirst (c : Char) (s : List Char) : List Char × List Char :=
  match breakAtChar c s with
  | some p => p
  | none => (s, [])

/-- Python `s.split(c)`: all separator-delimited pieces. -/
def splitOnChar (c : Char) : List Char → List (List Char)
  | [] => [[]]
  | x :: xs =>
    let r := splitOnChar c xs
    if x = c then [] :: r
    else
      match r with
      | [] => [[x]]
      | h :: t => (x :: h) :: t

/-- `sep.join(parts)` for a one-character separator. -/
def joinSep (sep : Char) : List (List Char) → List Char
  | [] => []
  | [x] => x
  | x :: y :: t => x ++ sep :: joinSep sep (y :: t)

/-- Characters allowed in a URL scheme (`urllib.parse.scheme_chars`). -/
def isSchemeChar (c : Char) : Bool :=
  c.isAlpha || c.isDigit || c == '+' || c == '-' || c == '.'

/-- The components produced by `urllib.parse.urlparse`. -/
structure UrlParts where
  scheme : List Char
  netloc : List Char
  path : List Char
  pathParams : List Char
  query : List Char
  fragment : List Char
deriving DecidableEq, Repr

/-- `urlsplit` scheme detection: a scheme is split off at the first `:`
when the part before it is nonempty, starts with an ASCII letter and
consists of scheme characters; the scheme is lowercased. -/
def splitSchemePart (s : List Char) : List Char × List Char :=
  match breakAtChar ':' s with
  | some p =>
    if p.1 ≠ [] ∧ p.1.headI.isAlpha = true ∧ p.1.all isSchemeChar then
      (p.1.map Char.toLower, p.2)
    else ([], s)
  | none => ([], s)

/-- A character that ends the network-location part of a URL. -/
def netlocStop (c : Char) : Bool := c == '/' || c == '?' || c == '#'

/-- `urlsplit` netloc detection: after a leading `//`, everything up to the
first `/`, `?` or `#`. -/
def splitNetlocPart : List Char → List Char × List Char
  | '/' :: '/' :: rest =>
    (rest.takeWhile (fun c => !netlocStop c),
     rest.dropWhile (fun c => !netlocStop c))
  | s => ([], s)

/-- Split around the last `/`: `some (before, after)` with no `/` in
`after`; `none` when there is no `/`. -/
def splitAtLastSlash : List Char → Option (List Char × List Char)
  | [] => none
  | c :: cs =>
    match splitAtLastSlash cs with
    | some p => some (c :: p.1, p.2)
    | none => if c = '/' then some ([], cs) else none

/-- `urllib.parse._splitparams`: split a trailing `;parameters` off the
last path segment. -/
def splitPathParams (p : List Char) : List Char × List Char :=
  match splitAtLastSlash p with
  | some q =>
    match breakAtChar ';' q.2 with
    | some r => (q.1 ++ '/' :: r.1, r.2)
    | none => (p, [])
  | none =>
    match breakAtChar ';' p with
    | some r => (r.1, r.2)
    | none => (p, [])

/-- The path/params step of `urlparse`: `_splitparams` is applied only when
the path contains `;`. -/
def pathOfRaw (p : List Char) : List Char × List Char :=
  if ';' ∈ p then splitPathParams p else (p, [])

/-- `urlsplit` removes tab, CR and LF before parsing. -/
def stripUnsafe (s : List Char) : List Char :=
  s.filter (fun c => !(c == '\t' || c == '\r' || c == '\n'))

/-- Model of `urllib.parse.urlparse` (`urlsplit` plus the `;parameters`
split).  `none` models the `ValueError` raised for unbalanced IPv6
brackets.  (The NFKC netloc check, which concerns only non-ASCII input, is
not modelled.) -/
def pyUrlparse (s0 : List Char) : Option UrlParts :=
  let s := stripUnsafe s0
  let sch := splitSchemePart s
  let nl := splitNetlocPart sch.2
  if ('[' ∈ nl.1 ∧ ']' ∉ nl.1) ∨ (']' ∈ nl.1 ∧ '[' ∉ nl.1) then none
  else
    let fr := splitFirst '#' nl.2
    let qu := splitFirst '?' fr.1
    let pp := pathOfRaw qu.1
    some ⟨sch.1, nl.1, pp.1, pp.2, qu.2, fr.2⟩

/-- The `name=` entries `get_url_signature` keeps from one `&`-piece of the
query: pieces without `=` or with an empty name are dropped. -/
def sigParamOf (param : List Char) : Option (List Char) :=
  if '=' ∈ param then
    let name := param.takeWhile (fun c => c ≠ '=')
    if name = [] then none else some (name ++ ['='])
  else none

/-- `XSSScanner.get_url_signature` (source lines 1669-1700): the query is
taken from after the fragment when the fragment contains `?`, parameter
values are stripped, and on a parsing exception the URL is returned
unchanged. -/
def getUrlSignature (url : List Char) : List Char :=
  match pyUrlparse url with
  | none => url
  | some parsed =>
    let query :=
      match breakAtChar '#' url with
      | some p =>
        let seg1 := upToFirst '#' p.2
        match breakAtChar '?' seg1 with
        | some q => upToFirst '?' q.2
        | none => parsed.query
      | none => parsed.query
    let ps := (splitOnChar '&' query).filterMap sigParamOf
    let base :=
      parsed.scheme ++ ':' :: '/' :: '/' :: (parsed.netloc ++ parsed.path)
    if ps = [] then base else base ++ '?' :: joinSep '&' ps

/-- Hexadecimal digit value. -/
def hexVal (c : Char) : Option Nat :=
  if '0' ≤ c ∧ c ≤ '9' then some (c.toNat - '0'.toNat)
  else if 'a' ≤ c ∧ c ≤ 'f' then some (c.toNat - 'a'.toNat + 10)
  else if 'A' ≤ c ∧ c ≤ 'F' then some (c.toNat - 'A'.toNat + 10)
  else none

/-- Model of `urllib.parse.unquote` restricted to single-byte (ASCII)
percent-escapes; multi-byte UTF-8 sequences (bytes ≥ 0x80) are left
undecoded, which no claim exercises. -/
def pyUnquote : List Char → List Char
  | [] => []
  | '%' :: a :: b :: rest =>
    match hexVal a, hexVal b with
    | some x, some y =>
      if x * 16 + y < 128 then Char.ofNat (x * 16 + y) :: pyUnquote rest
      else '%' :: a :: b :: pyUnquote rest
    | _, _ => '%' :: pyUnquote (a :: b :: rest)
  | c :: rest => c :: pyUnquote rest

/-- Python `str.startswith` on character lists. -/
def startsWithChars : List Char → List Char → Bool
  | [], _ => true
  | _ :: _, [] => false
  | p :: ps, c :: cs => p == c && startsWithChars ps cs

/-- `validate_url` (source lines 560-596): URL-decode, require an
`http(s)://` prefix and a `?`, pick the query fragment-aware, and require
at least one `name=`-shaped parameter with a nonempty name. -/
def validateUrl (url : List Char) : Bool :=
  let d := pyUnquote url
  if !(startsWithChars (chars "http://") d ||
       startsWithChars (chars "https://") d) then false
  else if !(d.contains '?') then false
  else
    let qp :=
      match breakAtChar '#' d with
      | some p =>
        let seg1 := upToFirst '#' p.2
        if seg1.contains '?' then
          match breakAtChar '?' seg1 with
          | some q => upToFirst '?' q.2
          | none => []
        else
          match breakAtChar '?' d with
          | some q => upToFirst '?' q.2
          | none => []
      | none =>
        match breakAtChar '?' d with
        | some q => upToFirst '?' q.2
        | none => []
    (splitOnChar '&' qp).any (fun param =>
      !param.isEmpty && param.contains '=' &&
        !(param.takeWhile (fun c => c ≠ '=')).isEmpty)

/-- The URL-list loading loop of `load_files` (source lines 1713-1726):
keep each valid URL whose signature is new, count skipped duplicates. -/
def loadFilesDedup : List (List Char) → List (List Char) →
    List (List Char) × Nat
  | [], _ => ([], 0)
  | u :: us, seen =>
    if validateUrl u = false then loadFilesDedup us seen
    else
      let sg := getUrlSignature u
      if sg ∈ seen then
        let r := loadFilesDedup us seen
        (r.1, r.2 + 1)
      else
        let r := loadFilesDedup us (sg :: seen)
        (u :: r.1, r.2)

/-! ### Parameter contexts (`should_test_parameter`, `process_batch`) -/

/-- `'+'` to space, then percent-decode: the key decoding done by
`urllib.parse.parse_qsl`. -/
def unquotePlus (s : List Char) : List Char :=
  pyUnquote (s.map (fun c => if c = '+' then ' ' else c))

/-- Keep the first occurrence of each element. -/
def dedupFirstAux (seen : List (List Char)) :
    List (List Char) → List (List Char)
  | [] => []
  | x :: xs =>
    if x ∈ seen then dedupFirstAux seen xs
    else x :: dedupFirstAux (x :: seen) xs

/-- The ordered key list of `parse_qs(query, keep_blank_values=True)`:
split on `&`, skip empty segments, decode the part before the first `=`,
merge duplicate names keeping first-occurrence order. -/
def parseQsKeys (query : List Char) : List (List Char) :=
  dedupFirstAux []
    ((splitOnChar '&' query).filterMap (fun seg =>
      if seg.isEmpty then none
      else some (unquotePlus (upToFirst '=' seg))))

/-- Python `str.rstrip('/')`. -/
def rstripSlash (p : List Char) : List Char :=
  (p.reverse.dropWhile (fun c => c = '/')).reverse

/-- `get_parameter_context` (source lines 1013-1016):
`netloc + path.rstrip('/') + ":" + param.lower()`.  URLs whose parse
raises never reach this point; that case is mapped to the empty context. -/
def paramContext (url param : List Char) : List Char :=
  match pyUrlparse url with
  | some parsed =>
    parsed.netloc ++ rstripSlash parsed.path ++ ':' :: param.map Char.toLower
  | none => []

/-- The `(url, param)` pairs for which `process_batch` (source lines
1417-1429) consults `should_test_parameter`: the `parse_qs` keys of each
URL's query, URLs in order. -/
def batchCalls (urls : List (List Char)) : List (List Char × List Char) :=
  urls.flatMap (fun u =>
    match pyUrlparse u with
    | some parsed => (parseQsKeys parsed.query).map (fun p => (u, p))
    | none => [])

/-- `should_test_parameter` under its lock (source lines 1018-1024),
iterated over a sequence of calls: returns the granted calls, i.e. those
for which it returned `True` and added the context to the tested set. -/
def grantedCalls : List (List Char × List Char) → List (List Char) →
    List (List Char × List Char)
  | [], _ => []
  | up :: rest, tested =>
    let c := paramContext up.1 up.2
    if c ∈ tested then grantedCalls rest tested
    else up :: grantedCalls rest (c :: tested)

/-- No tab, carriage return or line feed occurs in the list (so `urlsplit`
strips nothing). -/
def noUnsafe (s : List Char) : Prop :=
  ∀ c ∈ s, ¬(c = '\t' ∨ c = '\r' ∨ c = '\n')

/-! ### Canonical signature shapes (used to settle the signature claims) -/

/-- The canonical output form of `get_url_signature` on an `http(s)://` URL:
scheme, `://`, netloc, path, and the value-stripped parameter names. -/
def mkSigUrl (sch n p : List Char) (ps : List (List Char)) : List Char :=
  sch ++ ':' :: '/' :: '/' :: (n ++ p) ++
    (if ps = [] then [] else '?' :: joinSep '&' ps)

/-- Invariants of the components of a canonical signature: an `http(s)`
scheme, a netloc free of `/?#` with balanced brackets, a slash-initial path
free of `?#` and stable under the `;parameters` split, and `name=` entries
with nonempty names free of `=&#`; everything free of stripped control
characters. -/
def SigShape (sch n p : List Char) (ps : List (List Char)) : Prop :=
  (sch = chars "http" ∨ sch = chars "https") ∧
  (∀ c ∈ n, netlocStop c = false) ∧
  ¬(('[' ∈ n ∧ ']' ∉ n) ∨ (']' ∈ n ∧ '[' ∉ n)) ∧
  '?' ∉ p ∧ '#' ∉ p ∧ (p = [] ∨ ∃ t, p = '/' :: t) ∧ (pathOfRaw p).1 = p ∧
  noUnsafe n ∧ noUnsafe p ∧
  (∀ e ∈ ps, ∃ nm, e = nm ++ ['='] ∧ nm ≠ [] ∧ '=' ∉ nm ∧ '&' ∉ nm ∧
    '#' ∉ nm ∧ noUnsafe nm)

/-- An `http(s)://` URL assembled from a base (netloc and path) and a query
of `name=value` pairs. -/
def mkValUrl (sch base : List Char) (pairs : List (List Char × List Char)) :
    List Char :=
  sch ++ ':' :: '/' :: '/' :: base ++ '?' ::
    joinSep '&' (pairs.map (fun nv => nv.1 ++ '=' :: nv.2))

/-- `q2` is `q1` (as `&`-separated pieces) with extra valueless pieces
(pieces containing no `=`) inserted anywhere. -/
inductive ValuelessInsert : List (List Char) → List (List Char) → Prop where
  | nil : ValuelessInsert [] []
  | keep {x : List Char} {xs ys : List (List Char)} :
      ValuelessInsert xs ys → ValuelessInsert (x :: xs) (x :: ys)
  | extra {x : List Char} {xs ys : List (List Char)} :
      '=' ∉ x → ValuelessInsert xs ys → ValuelessInsert xs (x :: ys)

/-- `noUnsafe` is a bounded quantification, hence decidable. -/
instance decNoUnsafe (s : List Char) : Decidable (noUnsafe s) :=
  inferInstanceAs (Decidable (∀ c ∈ s, ¬(c = '\t' ∨ c = '\r' ∨ c = '\n')))

/-! ## Helper lemmas -/

theorem replaceChar_append (c : Char) (r a b : List Char) :
    replaceChar c r (a ++ b) = replaceChar c r a ++ replaceChar c r b := by
  induction a with
  | nil => rfl
  | cons x xs ih => simp [replaceChar, ih]

theorem telegramEscape_cons (x : Char) (xs : List Char) :
    telegramEscape (x :: xs) = telegramEscape [x] ++ telegramEscape xs := by
  show telegramEscape ([x] ++ xs) = _
  simp only [telegramEscape, replaceChar_append]

theorem telegramEscape_single (x : Char) :
    telegramEscape [x] = telegramEscapeChar x := by
  by_cases h1 : x = '<'
  · subst h1; rfl
  by_cases h2 : x = '>'
  · subst h2; rfl
  by_cases h3 : x = '&'
  · subst h3; rfl
  by_cases h4 : x = '"'
  · subst h4; rfl
  by_cases h5 : x = '\''
  · subst h5; rfl
  simp [telegramEscape, replaceChar, telegramEscapeChar, h1, h2, h3, h4, h5]

/-! ## Claim theorems (part 1) -/

/-- C1: on the non-exception path of `validate_alert`, the classification is
exactly: alert ∧ reflected ∧ dom → `both`; alert ∧ reflected only →
`reflected`; alert ∧ dom only → `dom`; alert with neither → `reflected`;
and with no alert the returned `alert_triggered` is `False` and the caller
records no finding. -/
theorem validate_alert_classification (a r d : Bool) (text : List Char) :
    (a = true → r = true → d = true →
      (validateAlertReturn a r d text).2.2 = chars "both") ∧
    (a = true → r = true → d = false →
      (validateAlertReturn a r d text).2.2 = chars "reflected") ∧
    (a = true → r = false → d = true →
      (validateAlertReturn a r d text).2.2 = chars "dom") ∧
    (a = true → r = false → d = false →
      (validateAlertReturn a r d text).2.2 = chars "reflected") ∧
    (a = false → (validateAlertReturn a r d text).1 = false ∧
      ∀ ts dom p pl u, processAlertResult ts dom p pl u
        (validateAlertReturn a r d text) = none) := by
  cases a <;> cases r <;> cases d <;>
    simp [validateAlertReturn, classifyXss, processAlertResult]

/-- Witness for C1 at concrete booleans. -/
theorem validate_alert_classification_witness :
    (validateAlertReturn true true true (chars "1")).2.2 = chars "both" ∧
    (validateAlertReturn false true false (chars "1")).1 = false :=
  ⟨(validate_alert_classification true true true (chars "1")).1 rfl rfl rfl,
   ((validate_alert_classification false true false (chars "1")).2.2.2.2
      rfl).1⟩

/-- C2 counterexample: when the validator reports `xss_type = 'both'`, the
finding recorded by the caller carries type `"Reflected"`, not `'both'`. -/
theorem record_both_not_preserved :
    (processAlertResult (chars "t") (chars "d") (chars "q") (chars "x")
        (chars "u") (true, chars "1", chars "both")).map Finding.xtype =
      some (chars "Reflected") ∧
    chars "Reflected" ≠ chars "both" := by
  exact ⟨rfl, by decide⟩

/-- C2 amended: `record_vulnerability` itself stores its `xss_type` argument
unchanged, but the call site first maps the validator's type to a display
label — `"DOM Based"` for `'dom'` and `"Reflected"` for everything else
(including `'both'`) — so the validator's member of
{reflected, dom, both} is not what is recorded. -/
theorem recorded_type_is_label (ts dom p pl u atext v t : List Char) :
    (processAlertResult ts dom p pl u (true, atext, v)).map Finding.xtype =
      some (if v = chars "dom" then chars "DOM Based"
            else chars "Reflected") ∧
    (recordVulnerability ts dom p pl u atext t).xtype = t := by
  refine ⟨?_, rfl⟩
  simp [processAlertResult, recordVulnerability, typeLabel]

/-- C4: per `(url, parameter)` worker, with first confirmed alert at 1-based
index `k` exactly `min k N` payloads are attempted, and the progress
increments always sum to exactly `N = os.length`. -/
theorem payload_loop_attempts_progress (os : List AttemptOutcome)
    (s : ScanStats) :
    (runPayloadLoop os s).1.progress = s.progress + os.length ∧
    (∀ k, firstConfirmedAt os k →
      (runPayloadLoop os s).2 = min k os.length) := by
  induction os generalizing s with
  | nil =>
    refine ⟨rfl, ?_⟩
    rintro k ⟨-, -, hget⟩
    simp at hget
  | cons o rest ih =>
    cases o with
    | confirmed =>
      refine ⟨?_, ?_⟩
      · simp [runPayloadLoop, attemptStep]
        omega
      · rintro k ⟨hk1, hnone, -⟩
        have hk : k = 1 := by
          by_contra hne
          have h2 : 2 ≤ k := by omega
          have : AttemptOutcome.confirmed ∈
              (AttemptOutcome.confirmed :: rest).take (k - 1) := by
            have : k - 1 = (k - 2) + 1 := by omega
            rw [this, List.take_succ_cons]
            exact List.mem_cons_self _ _
          exact hnone _ this rfl
        subst hk
        simp [runPayloadLoop]
    | non200 =>
      refine ⟨?_, ?_⟩
      · have := (ih (attemptStep .non200 0 s)).1
        simp only [runPayloadLoop] at *
        rw [this]
        simp [attemptStep]
        omega
      · rintro k ⟨hk1, hnone, hget⟩
        have hk2 : 2 ≤ k := by
          by_contra hne
          have : k = 1 := by omega
          subst this
          simp [AttemptOutcome.confirmed] at hget
        have hrest : firstConfirmedAt rest (k - 1) := by
          refine ⟨by omega, ?_, ?_⟩
          · intro o ho
            apply hnone
            have : k - 1 = (k - 2) + 1 := by omega
            rw [this, List.take_succ_cons]
            exact List.mem_cons_of_mem _ (by
              have h21 : k - 1 - 1 = k - 2 := by omega
              rw [h21] at ho
              exact ho)
          · have : k - 1 = (k - 2) + 1 := by omega
            rw [this] at hget
            simpa using hget
        have := (ih (attemptStep .non200 0 s)).2 (k - 1) hrest
        simp only [runPayloadLoop]
        rw [this]
        simp only [List.length_cons]
        omega
    | noHint =>
      refine ⟨?_, ?_⟩
      · have := (ih (attemptStep .noHint 0 s)).1
        simp only [runPayloadLoop] at *
        rw [this]
        simp [attemptStep]
        omega
      · rintro k ⟨hk1, hnone, hget⟩
        have hk2 : 2 ≤ k := by
          by_contra hne
          have : k = 1 := by omega
          subst this
          simp [AttemptOutcome.confirmed] at hget
        have hrest : firstConfirmedAt rest (k - 1) := by
          refine ⟨by omega, ?_, ?_⟩
          · intro o ho
            apply hnone
            have : k - 1 = (k - 2) + 1 := by omega
            rw [this, List.take_succ_cons]
            exact List.mem_cons_of_mem _ (by
              have h21 : k - 1 - 1 = k - 2 := by omega
              rw [h21] at ho
              exact ho)
          · have : k - 1 = (k - 2) + 1 := by omega
            rw [this] at hget
            simpa using hget
        have := (ih (attemptStep .noHint 0 s)).2 (k - 1) hrest
        simp only [runPayloadLoop]
        rw [this]
        simp only [List.length_cons]
        omega
    | noAlert =>
      refine ⟨?_, ?_⟩
      · have := (ih (attemptStep .noAlert 0 s)).1
        simp only [runPayloadLoop] at *
        rw [this]
        simp [attemptStep]
        omega
      · rintro k ⟨hk1, hnone, hget⟩
        have hk2 : 2 ≤ k := by
          by_contra hne
          have : k = 1 := by omega
          subst this
          simp [AttemptOutcome.confirmed] at hget
        have hrest : firstConfirmedAt rest (k - 1) := by
          refine ⟨by omega, ?_, ?_⟩
          · intro o ho
            apply hnone
            have : k - 1 = (k - 2) + 1 := by omega
            rw [this, List.take_succ_cons]
            exact List.mem_cons_of_mem _ (by
              have h21 : k - 1 - 1 = k - 2 := by omega
              rw [h21] at ho
              exact ho)
          · have : k - 1 = (k - 2) + 1 := by omega
            rw [this] at hget
            simpa using hget
        have := (ih (attemptStep .noAlert 0 s)).2 (k - 1) hrest
        simp only [runPayloadLoop]
        rw [this]
        simp only [List.length_cons]
        omega
    | errored =>
      refine ⟨?_, ?_⟩
      · have := (ih (attemptStep .errored 0 s)).1
        simp only [runPayloadLoop] at *
        rw [this]
        simp [attemptStep]
        omega
      · rintro k ⟨hk1, hnone, hget⟩
        have hk2 : 2 ≤ k := by
          by_contra hne
          have : k = 1 := by omega
          subst this
          simp [AttemptOutcome.confirmed] at hget
        have hrest : firstConfirmedAt rest (k - 1) := by
          refine ⟨by omega, ?_, ?_⟩
          · intro o ho
            apply hnone
            have : k - 1 = (k - 2) + 1 := by omega
            rw [this, List.take_succ_cons]
            exact List.mem_cons_of_mem _ (by
              have h21 : k - 1 - 1 = k - 2 := by omega
              rw [h21] at ho
              exact ho)
          · have : k - 1 = (k - 2) + 1 := by omega
            rw [this] at hget
            simpa using hget
        have := (ih (attemptStep .errored 0 s)).2 (k - 1) hrest
        simp only [runPayloadLoop]
        rw [this]
        simp only [List.length_cons]
        omega

/-- Witness for C4 with three payloads and the first hit at index 2. -/
theorem payload_loop_attempts_progress_witness :
    (runPayloadLoop [.noHint, .confirmed, .non200] statsZero).1.progress =
      statsZero.progress + 3 ∧
    (runPayloadLoop [.noHint, .confirmed, .non200] statsZero).2 = min 2 3 :=
  ⟨(payload_loop_attempts_progress [.noHint, .confirmed, .non200]
      statsZero).1,
   (payload_loop_attempts_progress [.noHint, .confirmed, .non200]
      statsZero).2 2 ⟨by decide, by decide, by decide⟩⟩

/-- C5 counterexample: on a non-200 response the `failed_payloads` counter is
NOT incremented — the loop only advances progress and continues. -/
theorem non200_failed_counter_unchanged :
    (attemptStep .non200 0 statsZero).failedPayloads = 0 ∧
    ¬ (attemptStep .non200 0 statsZero).failedPayloads =
        statsZero.failedPayloads + 1 := by
  decide

/-- C5 amended: on a non-200 status no finding is produced,
`payloads_tested` is incremented, `failed_payloads` is left unchanged (the
code does not touch it on this path), no browser page is borrowed, progress
advances by exactly 1, and the loop continues with the next payload. -/
theorem non200_attempt_effect (s : ScanStats) (rest : List AttemptOutcome) :
    (attemptStep .non200 0 s).findings = s.findings ∧
    (attemptStep .non200 0 s).payloadsTested = s.payloadsTested + 1 ∧
    (attemptStep .non200 0 s).failedPayloads = s.failedPayloads ∧
    (attemptStep .non200 0 s).pagesBorrowed = s.pagesBorrowed ∧
    (attemptStep .non200 0 s).progress = s.progress + 1 ∧
    runPayloadLoop (.non200 :: rest) s =
      ((runPayloadLoop rest (attemptStep .non200 0 s)).1,
       (runPayloadLoop rest (attemptStep .non200 0 s)).2 + 1) :=
  ⟨rfl, rfl, rfl, rfl, rfl, rfl⟩

/-- C6: `acquire()` first refills by `elapsed · R` capped at `R` and stamps
the epoch with `now`; if the refilled count is below one token it sleeps
exactly `1/R` seconds, sets the count to 1 and debits it (leaving 0);
otherwise it sleeps nothing and debits one token.  `reset()` restores the
full capacity `R` and updates the epoch. -/
theorem rate_limiter_acquire_reset (rate now t : ℚ) (st : RLState)
    (h : 0 < rate) :
    (rlAcquire rate now st).1.lastUpdate = now ∧
    (min rate (st.tokens + (now - st.lastUpdate) * rate) < 1 →
      (rlAcquire rate now st).2 = 1 / rate ∧
      (rlAcquire rate now st).1.tokens = 1 - 1) ∧
    (1 ≤ min rate (st.tokens + (now - st.lastUpdate) * rate) →
      (rlAcquire rate now st).2 = 0 ∧
      (rlAcquire rate now st).1.tokens =
        min rate (st.tokens + (now - st.lastUpdate) * rate) - 1) ∧
    (rlReset rate t).tokens = rate ∧ (rlReset rate t).lastUpdate = t := by
  refine ⟨?_, ?_, ?_, rfl, rfl⟩
  · simp only [rlAcquire]
    split <;> rfl
  · intro hlt
    simp only [rlAcquire, if_pos hlt, rlSleepTime, if_pos h]
    constructor <;> trivial
  · intro hge
    simp only [rlAcquire, if_neg (not_lt.mpr hge)]
    constructor <;> trivial

/-- Witness for C6 at `R = 2`, an empty bucket refilled for one second. -/
theorem rate_limiter_acquire_reset_witness :
    (rlAcquire 2 1 ⟨0, 0⟩).1.lastUpdate = 1 ∧ (rlReset 2 5).tokens = 2 :=
  ⟨(rate_limiter_acquire_reset 2 1 5 ⟨0, 0⟩ (by norm_num)).1,
   (rate_limiter_acquire_reset 2 1 5 ⟨0, 0⟩ (by norm_num)).2.2.2.1⟩

/-- C7 is a code bug: with `R = 1` and a full bucket at time 0, five
serialised `acquire()` calls requested at time 0 complete at times
0, 1, 1, 2, 2 — five completions inside the window `[0, 2]` of length
`T = 2`, exceeding the claimed bound `R·T + R = 3`.  The sleep path sets
`tokens = 1` without advancing `last_update`, so the slept second is
credited again at the next refill and sustained throughput reaches `2R`. -/
theorem rate_limiter_burst_exceeds_bound :
    rlRun 1 [0, 0, 1, 1, 2] (rlInit 1 0) 0 = [0, 1, 1, 2, 2] ∧
    ((rlRun 1 [0, 0, 1, 1, 2] (rlInit 1 0) 0).countP
      (fun c => decide (0 ≤ c ∧ c ≤ 2))) = 5 ∧
    ¬ ((5 : ℚ) ≤ 1 * 2 + 1) := by
  refine ⟨?_, ?_, by norm_num⟩
  · norm_num [rlRun, rlAcquire, rlInit, rlSleepTime, min_def, max_def]
  · norm_num [rlRun, rlAcquire, rlInit, rlSleepTime, min_def, max_def,
      List.countP_cons]

/-- C9 counterexample: the adapter turns `<` into `&amp;lt;`, not the
standard `&lt;` — the `&` introduced by escaping `<` is re-escaped. -/
theorem telegram_escape_double_escapes :
    telegramEscape (chars "<") = chars "&amp;lt;" ∧
    telegramEscape (chars "<") ≠ claimedHtmlEscape (chars "<") := by
  exact ⟨rfl, by decide⟩

/-- C9 amended: the text sent equals the message transformed character-wise
with `<` ↦ `&amp;lt;`, `>` ↦ `&amp;gt;`, `&` ↦ `&amp;`, `"` ↦ `&quot;` and
`'` ↦ `&#39;`: because the `&` replacement runs after `<` and `>`, the `&`
introduced by those two escapes is itself re-escaped, while `&quot;` and
`&#39;` are not. -/
theorem telegram_escape_charwise (m : List Char) :
    telegramEscape m = m.flatMap telegramEscapeChar := by
  induction m with
  | nil => rfl
  | cons x xs ih =>
    rw [telegramEscape_cons, telegramEscape_single, ih]
    simp

/-- Invariant of the `should_test_parameter` loop: granted contexts are
distinct, disjoint from the already-tested set, and together with it cover
exactly the contexts of all calls. -/
theorem grantedCalls_spec (cs : List (List Char × List Char))
    (tested : List (List Char)) :
    ((grantedCalls cs tested).map (fun up => paramContext up.1 up.2)).Nodup ∧
    (∀ c ∈ (grantedCalls cs tested).map (fun up => paramContext up.1 up.2),
      c ∉ tested) ∧
    ((grantedCalls cs tested).map
        (fun up => paramContext up.1 up.2)).toFinset ∪ tested.toFinset =
      (cs.map (fun up => paramContext up.1 up.2)).toFinset ∪
        tested.toFinset := by
  induction cs generalizing tested with
  | nil => simp [grantedCalls]
  | cons up rest ih =>
    by_cases hmem : paramContext up.1 up.2 ∈ tested
    · have h := ih tested
      simp only [grantedCalls, if_pos hmem]
      refine ⟨h.1, h.2.1, ?_⟩
      rw [h.2.2]
      simp only [List.map_cons, List.toFinset_cons, Finset.insert_union]
      rw [Finset.insert_eq_self.mpr]
      exact Finset.mem_union_right _ (List.mem_toFinset.mpr hmem)
    · have h := ih (paramContext up.1 up.2 :: tested)
      simp only [grantedCalls, if_neg hmem, List.map_cons]
      refine ⟨?_, ?_, ?_⟩
      · refine List.nodup_cons.mpr ⟨?_, h.1⟩
        intro hc
        exact (h.2.1 _ hc) (List.mem_cons_self _ _)
      · intro c hc
        rcases List.mem_cons.mp hc with h1 | h2
        · rw [h1]; exact hmem
        · intro hct
          exact (h.2.1 _ h2) (List.mem_cons_of_mem _ hct)
      · have h3 := h.2.2
        simp only [List.toFinset_cons] at h3 ⊢
        rw [Finset.insert_union, Finset.insert_union,
          ← Finset.union_insert, ← Finset.union_insert, h3]

/-- C3: over any input URL list `L`, the set of parameter contexts granted
by `should_test_parameter` equals the set of contexts of all
`(url, parameter)` pairs produced for the deduplicated list, each context
granted at most once; and the same holds for an arbitrary call sequence
(hence for any interleaving by concurrent workers). -/
theorem parameter_contexts_tested_once (L : List (List Char)) :
    (((grantedCalls (batchCalls (loadFilesDedup L []).1) []).map
        (fun up => paramContext up.1 up.2)).Nodup ∧
      ((grantedCalls (batchCalls (loadFilesDedup L []).1) []).map
          (fun up => paramContext up.1 up.2)).toFinset =
        ((batchCalls (loadFilesDedup L []).1).map
          (fun up => paramContext up.1 up.2)).toFinset) ∧
    ∀ cs : List (List Char × List Char),
      ((grantedCalls cs []).map (fun up => paramContext up.1 up.2)).Nodup ∧
      ((grantedCalls cs []).map
          (fun up => paramContext up.1 up.2)).toFinset =
        (cs.map (fun up => paramContext up.1 up.2)).toFinset := by
  have key : ∀ cs : List (List Char × List Char),
      ((grantedCalls cs []).map (fun up => paramContext up.1 up.2)).Nodup ∧
      ((grantedCalls cs []).map
          (fun up => paramContext up.1 up.2)).toFinset =
        (cs.map (fun up => paramContext up.1 up.2)).toFinset := by
    intro cs
    have h := grantedCalls_spec cs []
    refine ⟨h.1, ?_⟩
    have h3 := h.2.2
    simpa using h3
  exact ⟨key _, key⟩

/-! ## Splitting lemmas for the URL model -/

theorem breakAtChar_of_not_mem {c : Char} {l : List Char} (h : c ∉ l) :
    breakAtChar c l = none := by
  induction l with
  | nil => rfl
  | cons x xs ih =>
    have hx : x ≠ c := fun hh => h (hh ▸ List.mem_cons_self x xs)
    have hxs : c ∉ xs := fun hm => h (List.mem_cons_of_mem _ hm)
    simp [breakAtChar, hx, ih hxs]

theorem breakAtChar_eq_none {c : Char} {l : List Char} :
    breakAtChar c l = none ↔ c ∉ l := by
  constructor
  · intro h hm
    induction l with
    | nil => simp at hm
    | cons x xs ih =>
      by_cases hx : x = c
      · subst hx
        simp [breakAtChar] at h
      · simp only [breakAtChar, if_neg hx] at h
        cases hb : breakAtChar c xs with
        | none =>
          rcases List.mem_cons.mp hm with h1 | h1
          · exact hx h1.symm
          · exact ih (by rw [hb]) h1
        | some p => rw [hb] at h; simp at h
  · exact breakAtChar_of_not_mem

theorem breakAtChar_append {c : Char} {l₁ : List Char} (l₂ : List Char)
    (h : c ∉ l₁) : breakAtChar c (l₁ ++ c :: l₂) = some (l₁, l₂) := by
  induction l₁ with
  | nil => simp [breakAtChar]
  | cons x xs ih =>
    have hx : x ≠ c := fun hh => h (hh ▸ List.mem_cons_self x xs)
    have hxs : c ∉ xs := fun hm => h (List.mem_cons_of_mem _ hm)
    simp [breakAtChar, hx, ih hxs]

theorem breakAtChar_spec {c : Char} {l a b : List Char}
    (h : breakAtChar c l = some (a, b)) : l = a ++ c :: b ∧ c ∉ a := by
  induction l generalizing a with
  | nil => simp [breakAtChar] at h
  | cons x xs ih =>
    by_cases hx : x = c
    · subst hx
      have hred : breakAtChar x (x :: xs) = some ([], xs) := by
        simp [breakAtChar]
      rw [hred] at h
      simp only [Option.some.injEq, Prod.mk.injEq] at h
      rw [← h.1, ← h.2]
      exact ⟨rfl, List.not_mem_nil x⟩
    · simp only [breakAtChar, if_neg hx] at h
      cases hb : breakAtChar c xs with
      | none => rw [hb] at h; simp at h
      | some p =>
        rw [hb] at h
        simp only [Option.some.injEq, Prod.mk.injEq] at h
        obtain ⟨h1, h2⟩ := h
        obtain ⟨q1, q2⟩ := p
        simp only at h1 h2
        have hs := ih (a := q1) (by rw [hb, h2])
        subst h1 h2
        refine ⟨by rw [List.cons_append, ← hs.1], ?_⟩
        intro hm
        rcases List.mem_cons.mp hm with hm | hm
        · exact hx hm.symm
        · exact hs.2 hm

theorem upToFirst_not_mem (c : Char) (s : List Char) :
    c ∉ upToFirst c s := by
  unfold upToFirst
  cases hb : breakAtChar c s with
  | none => exact breakAtChar_eq_none.mp hb
  | some p =>
    obtain ⟨a, b⟩ := p
    exact (breakAtChar_spec hb).2

theorem upToFirst_subset {c x : Char} {s : List Char}
    (h : x ∈ upToFirst c s) : x ∈ s := by
  unfold upToFirst at h
  cases hb : breakAtChar c s with
  | none => rw [hb] at h; exact h
  | some p =>
    obtain ⟨a, b⟩ := p
    rw [hb] at h
    rw [(breakAtChar_spec hb).1]
    exact List.mem_append_left _ h

theorem splitFirst_fst_not_mem (c : Char) (s : List Char) :
    c ∉ (splitFirst c s).1 := by
  unfold splitFirst
  cases hb : breakAtChar c s with
  | none => exact breakAtChar_eq_none.mp hb
  | some p =>
    obtain ⟨a, b⟩ := p
    exact (breakAtChar_spec hb).2

theorem splitFirst_fst_subset {c x : Char} {s : List Char}
    (h : x ∈ (splitFirst c s).1) : x ∈ s := by
  unfold splitFirst at h
  cases hb : breakAtChar c s with
  | none => rw [hb] at h; exact h
  | some p =>
    obtain ⟨a, b⟩ := p
    rw [hb] at h
    rw [(breakAtChar_spec hb).1]
    exact List.mem_append_left _ h

theorem splitFirst_snd_subset {c x : Char} {s : List Char}
    (h : x ∈ (splitFirst c s).2) : x ∈ s := by
  unfold splitFirst at h
  cases hb : breakAtChar c s with
  | none => rw [hb] at h; simp at h
  | some p =>
    obtain ⟨a, b⟩ := p
    rw [hb] at h
    rw [(breakAtChar_spec hb).1]
    exact List.mem_append_right _ (List.mem_cons_of_mem _ h)

theorem splitFirst_of_not_mem {c : Char} {s : List Char} (h : c ∉ s) :
    splitFirst c s = (s, []) := by
  unfold splitFirst
  rw [breakAtChar_of_not_mem h]

theorem splitFirst_append {c : Char} {l₁ : List Char} (l₂ : List Char)
    (h : c ∉ l₁) : splitFirst c (l₁ ++ c :: l₂) = (l₁, l₂) := by
  unfold splitFirst
  rw [breakAtChar_append l₂ h]

theorem upToFirst_of_not_mem {c : Char} {s : List Char} (h : c ∉ s) :
    upToFirst c s = s := by
  unfold upToFirst
  rw [breakAtChar_of_not_mem h]

theorem upToFirst_append {c : Char} {l₁ : List Char} (l₂ : List Char)
    (h : c ∉ l₁) : upToFirst c (l₁ ++ c :: l₂) = l₁ := by
  unfold upToFirst
  rw [breakAtChar_append l₂ h]

theorem mem_takeWhile_pred {P : Char → Bool} {l : List Char} {x : Char}
    (h : x ∈ l.takeWhile P) : P x = true ∧ x ∈ l := by
  induction l with
  | nil => simp at h
  | cons a as ih =>
    rw [List.takeWhile_cons] at h
    by_cases hp : P a
    · rw [if_pos hp] at h
      rcases List.mem_cons.mp h with h1 | h1
      · exact ⟨h1 ▸ hp, h1 ▸ List.mem_cons_self a as⟩
      · exact ⟨(ih h1).1, List.mem_cons_of_mem _ (ih h1).2⟩
    · rw [if_neg hp] at h
      simp at h

theorem takeWhile_of_all {P : Char → Bool} {l : List Char}
    (h : ∀ y ∈ l, P y = true) : l.takeWhile P = l ∧ l.dropWhile P = [] := by
  induction l with
  | nil => exact ⟨rfl, rfl⟩
  | cons a as ih =>
    have ha : P a = true := h a (List.mem_cons_self a as)
    have has : ∀ y ∈ as, P y = true := fun y hy =>
      h y (List.mem_cons_of_mem _ hy)
    rw [List.takeWhile_cons, List.dropWhile_cons, if_pos ha, if_pos ha]
    exact ⟨by rw [(ih has).1], (ih has).2⟩

theorem takeWhile_append_stop {P : Char → Bool} {l₁ : List Char} (x : Char)
    (l₂ : List Char) (h1 : ∀ y ∈ l₁, P y = true) (h2 : P x = false) :
    (l₁ ++ x :: l₂).takeWhile P = l₁ ∧
    (l₁ ++ x :: l₂).dropWhile P = x :: l₂ := by
  induction l₁ with
  | nil =>
    rw [List.nil_append, List.takeWhile_cons, List.dropWhile_cons,
      if_neg (by simp [h2]), if_neg (by simp [h2])]
    exact ⟨rfl, rfl⟩
  | cons a as ih =>
    have ha : P a = true := h1 a (List.mem_cons_self a as)
    have has : ∀ y ∈ as, P y = true := fun y hy =>
      h1 y (List.mem_cons_of_mem _ hy)
    rw [List.cons_append, List.takeWhile_cons, List.dropWhile_cons,
      if_pos ha, if_pos ha]
    exact ⟨by rw [(ih has).1], (ih has).2⟩

theorem splitOnChar_ne_nil (c : Char) (l : List Char) :
    splitOnChar c l ≠ [] := by
  cases l with
  | nil => simp [splitOnChar]
  | cons x xs =>
    by_cases hx : x = c
    · simp [splitOnChar, hx]
    · simp only [splitOnChar, if_neg hx]
      cases hr : splitOnChar c xs with
      | nil => simp
      | cons h t => simp

theorem splitOnChar_piece_not_mem (c : Char) :
    ∀ l : List Char, ∀ piece ∈ splitOnChar c l, c ∉ piece := by
  intro l
  induction l with
  | nil =>
    intro piece hp
    simp [splitOnChar] at hp
    simp [hp]
  | cons x xs ih =>
    intro piece hp
    by_cases hx : x = c
    · rw [hx] at hp
      simp only [splitOnChar, if_pos rfl] at hp
      rcases List.mem_cons.mp hp with h1 | h1
      · simp [h1]
      · exact ih piece h1
    · simp only [splitOnChar, if_neg hx] at hp
      cases hr : splitOnChar c xs with
      | nil => exact absurd hr (splitOnChar_ne_nil c xs)
      | cons hd tl =>
        rw [hr] at hp
        rcases List.mem_cons.mp hp with h1 | h1
        · subst h1
          intro hm
          rcases List.mem_cons.mp hm with h2 | h2
          · exact hx h2.symm
          · exact ih hd (hr ▸ List.mem_cons_self hd tl) h2
        · exact ih piece (hr ▸ List.mem_cons_of_mem _ h1)

theorem splitOnChar_subset (c : Char) :
    ∀ l : List Char, ∀ piece ∈ splitOnChar c l, ∀ x ∈ piece, x ∈ l := by
  intro l
  induction l with
  | nil =>
    intro piece hp x hx
    simp [splitOnChar] at hp
    rw [hp] at hx
    simp at hx
  | cons y ys ih =>
    intro piece hp x hx
    by_cases hy : y = c
    · rw [hy] at hp ⊢
      simp only [splitOnChar, if_pos rfl] at hp
      rcases List.mem_cons.mp hp with h1 | h1
      · rw [h1] at hx; simp at hx
      · exact List.mem_cons_of_mem _ (ih piece h1 x hx)
    · simp only [splitOnChar, if_neg hy] at hp
      cases hr : splitOnChar c ys with
      | nil => exact absurd hr (splitOnChar_ne_nil c ys)
      | cons hd tl =>
        rw [hr] at hp
        rcases List.mem_cons.mp hp with h1 | h1
        · subst h1
          rcases List.mem_cons.mp hx with h2 | h2
          · exact h2 ▸ List.mem_cons_self y ys
          · exact List.mem_cons_of_mem _
              (ih hd (hr ▸ List.mem_cons_self hd tl) x h2)
        · exact List.mem_cons_of_mem _
            (ih piece (hr ▸ List.mem_cons_of_mem _ h1) x hx)

theorem splitOnChar_of_not_mem {c : Char} {l : List Char} (h : c ∉ l) :
    splitOnChar c l = [l] := by
  induction l with
  | nil => rfl
  | cons x xs ih =>
    have hx : x ≠ c := fun hh => h (hh ▸ List.mem_cons_self x xs)
    have hxs : c ∉ xs := fun hm => h (List.mem_cons_of_mem _ hm)
    simp only [splitOnChar, if_neg hx, ih hxs]

theorem splitOnChar_append_sep {c : Char} {l₁ : List Char} (l₂ : List Char)
    (h : c ∉ l₁) : splitOnChar c (l₁ ++ c :: l₂) = l₁ :: splitOnChar c l₂ := by
  induction l₁ with
  | nil => simp [splitOnChar]
  | cons x xs ih =>
    have hx : x ≠ c := fun hh => h (hh ▸ List.mem_cons_self x xs)
    have hxs : c ∉ xs := fun hm => h (List.mem_cons_of_mem _ hm)
    simp only [List.cons_append, splitOnChar, if_neg hx, List.append_eq,
      ih hxs]

theorem splitOnChar_joinSep {c : Char} :
    ∀ ps : List (List Char), ps ≠ [] → (∀ p ∈ ps, c ∉ p) →
      splitOnChar c (joinSep c ps) = ps
  | [], hne, _ => absurd rfl hne
  | [x], _, hfree => by
    simp only [joinSep]
    exact splitOnChar_of_not_mem (hfree x (List.mem_singleton.mpr rfl))
  | x :: y :: t, _, hfree => by
    have hx : c ∉ x := hfree x (List.mem_cons_self _ _)
    have hrest : ∀ p ∈ y :: t, c ∉ p := fun p hp =>
      hfree p (List.mem_cons_of_mem _ hp)
    simp only [joinSep, splitOnChar_append_sep _ hx]
    rw [splitOnChar_joinSep (y :: t) (by simp) hrest]

theorem splitAtLastSlash_eq_none {l : List Char} :
    splitAtLastSlash l = none ↔ '/' ∉ l := by
  induction l with
  | nil => simp [splitAtLastSlash]
  | cons x xs ih =>
    cases hb : splitAtLastSlash xs with
    | some p =>
      have hmem : '/' ∈ xs := by
        by_contra hnm
        simp [ih.mpr hnm] at hb
      simp [splitAtLastSlash, hb, List.mem_cons, hmem]
    | none =>
      have hxs : '/' ∉ xs := ih.mp hb
      by_cases hx : x = '/'
      · simp [splitAtLastSlash, hb, hx]
      · refine ⟨fun _ hm => ?_, fun _ => ?_⟩
        · rcases List.mem_cons.mp hm with h1 | h1
          · exact hx h1.symm
          · exact hxs h1
        · simp [splitAtLastSlash, hb, hx]

theorem splitAtLastSlash_spec {l a b : List Char}
    (h : splitAtLastSlash l = some (a, b)) :
    l = a ++ '/' :: b ∧ '/' ∉ b := by
  induction l generalizing a with
  | nil => simp [splitAtLastSlash] at h
  | cons x xs ih =>
    cases hb : splitAtLastSlash xs with
    | some p =>
      obtain ⟨q1, q2⟩ := p
      simp only [splitAtLastSlash, hb, Option.some.injEq, Prod.mk.injEq] at h
      obtain ⟨h1, h2⟩ := h
      have hs := ih (a := q1) (by rw [hb, h2])
      rw [← h1]
      exact ⟨by rw [List.cons_append, ← hs.1], hs.2⟩
    | none =>
      simp only [splitAtLastSlash, hb] at h
      by_cases hx : x = '/'
      · rw [if_pos hx] at h
        simp only [Option.some.injEq, Prod.mk.injEq] at h
        rw [← h.1, ← h.2, hx]
        exact ⟨rfl, splitAtLastSlash_eq_none.mp hb⟩
      · rw [if_neg hx] at h
        simp at h

theorem splitAtLastSlash_append (a : List Char) {b : List Char}
    (h : '/' ∉ b) : splitAtLastSlash (a ++ '/' :: b) = some (a, b) := by
  induction a with
  | nil =>
    rw [List.nil_append]
    simp [splitAtLastSlash, splitAtLastSlash_eq_none.mpr h]
  | cons x xs ih =>
    simp only [List.cons_append, splitAtLastSlash, List.append_eq, ih]

theorem splitPathParams_some_some {p a b b1 b2 : List Char}
    (h1 : splitAtLastSlash p = some (a, b))
    (h2 : breakAtChar ';' b = some (b1, b2)) :
    splitPathParams p = (a ++ '/' :: b1, b2) := by
  simp [splitPathParams, h1, h2]

theorem splitPathParams_some_none {p a b : List Char}
    (h1 : splitAtLastSlash p = some (a, b))
    (h2 : breakAtChar ';' b = none) :
    splitPathParams p = (p, []) := by
  simp [splitPathParams, h1, h2]

theorem splitPathParams_none_some {p p1 p2 : List Char}
    (h1 : splitAtLastSlash p = none)
    (h2 : breakAtChar ';' p = some (p1, p2)) :
    splitPathParams p = (p1, p2) := by
  simp [splitPathParams, h1, h2]

theorem splitPathParams_none_none {p : List Char}
    (h1 : splitAtLastSlash p = none)
    (h2 : breakAtChar ';' p = none) :
    splitPathParams p = (p, []) := by
  simp [splitPathParams, h1, h2]

theorem pathOfRaw_fst_subset {x : Char} {p : List Char}
    (h : x ∈ (pathOfRaw p).1) : x ∈ p := by
  unfold pathOfRaw at h
  by_cases hsemi : ';' ∈ p
  · rw [if_pos hsemi] at h
    cases hsl : splitAtLastSlash p with
    | some q =>
      obtain ⟨a, b⟩ := q
      have hspec := splitAtLastSlash_spec hsl
      cases hbc : breakAtChar ';' b with
      | some r =>
        obtain ⟨b1, b2⟩ := r
        rw [splitPathParams_some_some hsl hbc] at h
        have hbs := breakAtChar_spec hbc
        rw [hspec.1, hbs.1]
        simp only at h
        rcases List.mem_append.mp h with h1 | h1
        · exact List.mem_append_left _ h1
        · rcases List.mem_cons.mp h1 with h2 | h2
          · exact List.mem_append_right _ (h2 ▸ List.mem_cons_self _ _)
          · exact List.mem_append_right _
              (List.mem_cons_of_mem _ (List.mem_append_left _ h2))
      | none =>
        rw [splitPathParams_some_none hsl hbc] at h
        exact h
    | none =>
      cases hbc : breakAtChar ';' p with
      | some r =>
        obtain ⟨p1, p2⟩ := r
        rw [splitPathParams_none_some hsl hbc] at h
        have hbs := breakAtChar_spec hbc
        rw [hbs.1]
        exact List.mem_append_left _ h
      | none =>
        rw [splitPathParams_none_none hsl hbc] at h
        exact h
  · rw [if_neg hsemi] at h
    exact h

theorem pathOfRaw_shape (p : List Char)
    (h : p = [] ∨ ∃ t, p = '/' :: t) :
    (pathOfRaw p).1 = [] ∨ ∃ t, (pathOfRaw p).1 = '/' :: t := by
  unfold pathOfRaw
  by_cases hsemi : ';' ∈ p
  · rw [if_pos hsemi]
    rcases h with h | ⟨t, ht⟩
    · subst h
      simp at hsemi
    · cases hsl : splitAtLastSlash p with
      | some q =>
        obtain ⟨a, b⟩ := q
        have hspec := splitAtLastSlash_spec hsl
        cases hbc : breakAtChar ';' b with
        | some r =>
          obtain ⟨b1, b2⟩ := r
          rw [splitPathParams_some_some hsl hbc]
          right
          cases ha : a with
          | nil => exact ⟨b1, by simp⟩
          | cons a0 a' =>
            have ha0 : a0 = '/' := by
              have hp := hspec.1
              rw [ht, ha] at hp
              exact (List.cons_eq_cons.mp hp).1.symm
            exact ⟨a' ++ '/' :: b1, by simp [ha0]⟩
        | none =>
          rw [splitPathParams_some_none hsl hbc]
          right
          exact ⟨t, ht⟩
      | none =>
        have hns : '/' ∉ p := splitAtLastSlash_eq_none.mp hsl
        rw [ht] at hns
        exact absurd (List.mem_cons_self _ _) hns
  · rw [if_neg hsemi]
    exact h

theorem pathOfRaw_idem (p : List Char) :
    (pathOfRaw (pathOfRaw p).1).1 = (pathOfRaw p).1 := by
  by_cases hsemi : ';' ∈ p
  · have hfst : pathOfRaw p = splitPathParams p := by
      unfold pathOfRaw
      rw [if_pos hsemi]
    cases hsl : splitAtLastSlash p with
    | some q =>
      obtain ⟨a, b⟩ := q
      have hspec := splitAtLastSlash_spec hsl
      cases hbc : breakAtChar ';' b with
      | some r =>
        obtain ⟨b1, b2⟩ := r
        have hbs := breakAtChar_spec hbc
        have hb1semi : ';' ∉ b1 := hbs.2
        have hb1slash : '/' ∉ b1 := by
          intro hm
          exact hspec.2 (hbs.1 ▸ List.mem_append_left _ hm)
        have hval : (pathOfRaw p).1 = a ++ '/' :: b1 := by
          rw [hfst, splitPathParams_some_some hsl hbc]
        rw [hval]
        unfold pathOfRaw
        by_cases hsemi2 : ';' ∈ a ++ '/' :: b1
        · rw [if_pos hsemi2,
            splitPathParams_some_none (splitAtLastSlash_append a hb1slash)
              (breakAtChar_of_not_mem hb1semi)]
        · rw [if_neg hsemi2]
      | none =>
        have hval : (pathOfRaw p).1 = p := by
          rw [hfst, splitPathParams_some_none hsl hbc]
        rw [hval, hval]
    | none =>
      cases hbc : breakAtChar ';' p with
      | some r =>
        obtain ⟨p1, p2⟩ := r
        have hbs := breakAtChar_spec hbc
        have hval : (pathOfRaw p).1 = p1 := by
          rw [hfst, splitPathParams_none_some hsl hbc]
        rw [hval]
        unfold pathOfRaw
        rw [if_neg hbs.2]
      | none =>
        exact absurd hsemi (breakAtChar_eq_none.mp hbc)
  · have hval : (pathOfRaw p).1 = p := by
      unfold pathOfRaw
      rw [if_neg hsemi]
    rw [hval, hval]

theorem noUnsafe_of_subset {s t : List Char} (h : ∀ c ∈ s, c ∈ t)
    (ht : noUnsafe t) : noUnsafe s :=
  fun c hc => ht c (h c hc)

theorem stripUnsafe_eq_self {s : List Char} (h : noUnsafe s) :
    stripUnsafe s = s := by
  unfold stripUnsafe
  rw [List.filter_eq_self]
  intro a ha
  have h2 := h a ha
  push_neg at h2
  simp [h2.1, h2.2.1, h2.2.2]

theorem splitFirst_cons_self (c : Char) (t : List Char) :
    splitFirst c (c :: t) = ([], t) := by
  simp [splitFirst, breakAtChar]

theorem splitFirst_cons_ne {c x : Char} (t : List Char) (h : x ≠ c) :
    splitFirst c (x :: t) =
      (x :: (splitFirst c t).1, (splitFirst c t).2) := by
  unfold splitFirst
  cases hb : breakAtChar c t with
  | none => simp [breakAtChar, h, hb]
  | some p => simp [breakAtChar, h, hb]

theorem takeWhile_append_stopped {P : Char → Bool} {x : Char}
    (l₁ l₂ : List Char) (h2 : P x = false) :
    (l₁ ++ x :: l₂).takeWhile P = l₁.takeWhile P ∧
    (l₁ ++ x :: l₂).dropWhile P = l₁.dropWhile P ++ x :: l₂ := by
  induction l₁ with
  | nil =>
    rw [List.nil_append, List.takeWhile_cons, List.dropWhile_cons,
      if_neg (by simp [h2]), if_neg (by simp [h2])]
    exact ⟨rfl, rfl⟩
  | cons a as ih =>
    by_cases ha : P a
    · rw [List.cons_append, List.takeWhile_cons, List.takeWhile_cons,
        List.dropWhile_cons, List.dropWhile_cons,
        if_pos ha, if_pos ha, if_pos ha, if_pos ha]
      exact ⟨by rw [ih.1], by rw [ih.2]⟩
    · rw [List.cons_append, List.takeWhile_cons, List.takeWhile_cons,
        List.dropWhile_cons, List.dropWhile_cons,
        if_neg ha, if_neg ha, if_neg ha, if_neg ha]
      exact ⟨rfl, by rw [List.cons_append]⟩

theorem dropWhile_head_not (P : Char → Bool) (l : List Char) :
    l.dropWhile P = [] ∨
    ∃ c t, l.dropWhile P = c :: t ∧ P c = false := by
  induction l with
  | nil => exact Or.inl rfl
  | cons a as ih =>
    rw [List.dropWhile_cons]
    by_cases ha : P a
    · rw [if_pos ha]; exact ih
    · rw [if_neg ha]
      exact Or.inr ⟨a, as, rfl, by simpa using ha⟩

theorem mem_dropWhile_subset {P : Char → Bool} {l : List Char} {x : Char}
    (h : x ∈ l.dropWhile P) : x ∈ l := by
  induction l with
  | nil => simp at h
  | cons a as ih =>
    rw [List.dropWhile_cons] at h
    by_cases ha : P a
    · rw [if_pos ha] at h
      exact List.mem_cons_of_mem _ (ih h)
    · rw [if_neg ha] at h
      exact h

theorem joinSep_mem {c x : Char} :
    ∀ {ps : List (List Char)}, x ∈ joinSep c ps →
      x = c ∨ ∃ e ∈ ps, x ∈ e
  | [], h => by simp [joinSep] at h
  | [e], h => by
    simp only [joinSep] at h
    exact Or.inr ⟨e, List.mem_singleton.mpr rfl, h⟩
  | e :: f :: t, h => by
    simp only [joinSep] at h
    rcases List.mem_append.mp h with h1 | h1
    · exact Or.inr ⟨e, List.mem_cons_self _ _, h1⟩
    · rcases List.mem_cons.mp h1 with h2 | h2
      · exact Or.inl h2
      · rcases joinSep_mem h2 with h3 | ⟨g, hg1, hg2⟩
        · exact Or.inl h3
        · exact Or.inr ⟨g, List.mem_cons_of_mem _ hg1, hg2⟩

theorem sigParamOf_name {nm : List Char} (v : List Char) (hne : nm ≠ [])
    (hnm : '=' ∉ nm) : sigParamOf (nm ++ '=' :: v) = some (nm ++ ['=']) := by
  unfold sigParamOf
  rw [if_pos (List.mem_append_right _ (List.mem_cons_self _ _))]
  have htw : (nm ++ '=' :: v).takeWhile (fun c => c ≠ '=') = nm := by
    have := takeWhile_append_stopped (P := fun c => decide (c ≠ '='))
      (x := '=') nm v (by simp)
    rw [this.1, (takeWhile_of_all (fun y hy => by
      simp only [decide_eq_true_eq]
      exact fun hh => hnm (hh ▸ hy))).1]
  rw [htw, if_neg hne]

theorem filterMap_sigParamOf_names {ps : List (List Char)}
    (h : ∀ e ∈ ps, ∃ nm, e = nm ++ ['='] ∧ nm ≠ [] ∧ '=' ∉ nm) :
    ps.filterMap sigParamOf = ps := by
  induction ps with
  | nil => rfl
  | cons e t ih =>
    obtain ⟨nm, he, hne, hnm⟩ := h e (List.mem_cons_self _ _)
    rw [List.filterMap_cons, he, sigParamOf_name [] hne hnm]
    rw [ih (fun f hf => h f (List.mem_cons_of_mem _ hf))]

theorem sigParams_inv {q : List Char} (hq : '#' ∉ q) (hfree : noUnsafe q) :
    ∀ e ∈ (splitOnChar '&' q).filterMap sigParamOf,
      ∃ nm, e = nm ++ ['='] ∧ nm ≠ [] ∧ '=' ∉ nm ∧ '&' ∉ nm ∧
        '#' ∉ nm ∧ noUnsafe nm := by
  intro e he
  obtain ⟨piece, hpm, hpe⟩ := List.mem_filterMap.mp he
  unfold sigParamOf at hpe
  by_cases heq : '=' ∈ piece
  · rw [if_pos heq] at hpe
    set nm := piece.takeWhile (fun c => c ≠ '=') with hnm_def
    by_cases hni : nm = []
    · rw [if_pos hni] at hpe
      simp at hpe
    · rw [if_neg hni] at hpe
      have he2 : e = nm ++ ['='] := by
        simpa using hpe.symm
      have hsub : ∀ c ∈ nm, c ∈ piece := fun c hc =>
        (mem_takeWhile_pred hc).2
      have hpsub : ∀ c ∈ piece, c ∈ q :=
        splitOnChar_subset '&' q piece hpm
      refine ⟨nm, he2, hni, ?_, ?_, ?_, ?_⟩
      · intro hm
        have := (mem_takeWhile_pred hm).1
        simp at this
      · intro hm
        exact splitOnChar_piece_not_mem '&' q piece hpm (hsub _ hm)
      · intro hm
        exact hq (hpsub _ (hsub _ hm))
      · exact noUnsafe_of_subset (fun c hc => hpsub _ (hsub _ hc)) hfree
  · rw [if_neg heq] at hpe
    simp at hpe

theorem startsWithChars_iff {p s : List Char} :
    startsWithChars p s = true ↔ ∃ r, s = p ++ r := by
  induction p generalizing s with
  | nil =>
    simp only [startsWithChars, List.nil_append]
    exact ⟨fun _ => ⟨s, rfl⟩, fun _ => trivial⟩
  | cons x xs ih =>
    cases s with
    | nil =>
      simp only [startsWithChars]
      constructor
      · intro h; simp at h
      · rintro ⟨r, hr⟩; simp at hr
    | cons y ys =>
      simp only [startsWithChars, Bool.and_eq_true, beq_iff_eq]
      constructor
      · rintro ⟨h1, h2⟩
        obtain ⟨r, hr⟩ := ih.mp h2
        exact ⟨r, by rw [List.cons_append, ← h1, hr]⟩
      · rintro ⟨r, hr⟩
        rw [List.cons_append] at hr
        obtain ⟨h1, h2⟩ := List.cons_eq_cons.mp hr
        exact ⟨h1.symm, ih.mpr ⟨r, h2⟩⟩

theorem splitSchemePart_httpish {sch : List Char} (rest : List Char)
    (hne : ':' ∉ sch)
    (hcond : sch ≠ [] ∧ sch.headI.isAlpha = true ∧ sch.all isSchemeChar)
    (hlower : sch.map Char.toLower = sch) :
    splitSchemePart (sch ++ ':' :: rest) = (sch, rest) := by
  unfold splitSchemePart
  rw [breakAtChar_append rest hne]
  simp only
  rw [if_pos hcond, hlower]

theorem splitNetlocPart_slashes (r : List Char) :
    splitNetlocPart ('/' :: '/' :: r) =
      (r.takeWhile (fun c => !netlocStop c),
       r.dropWhile (fun c => !netlocStop c)) := by
  rfl

theorem pyUrlparse_httpish (sch : List Char) (r : List Char)
    (hsch : sch = chars "http" ∨ sch = chars "https") (hfree : noUnsafe r) :
    pyUrlparse (sch ++ ':' :: '/' :: '/' :: r) =
      (if ('[' ∈ r.takeWhile (fun c => !netlocStop c) ∧
            ']' ∉ r.takeWhile (fun c => !netlocStop c)) ∨
          (']' ∈ r.takeWhile (fun c => !netlocStop c) ∧
            '[' ∉ r.takeWhile (fun c => !netlocStop c)) then none
       else
         some ⟨sch,
           r.takeWhile (fun c => !netlocStop c),
           (pathOfRaw (splitFirst '?'
             (splitFirst '#' (r.dropWhile (fun c => !netlocStop c))).1).1).1,
           (pathOfRaw (splitFirst '?'
             (splitFirst '#' (r.dropWhile (fun c => !netlocStop c))).1).1).2,
           (splitFirst '?'
             (splitFirst '#' (r.dropWhile (fun c => !netlocStop c))).1).2,
           (splitFirst '#' (r.dropWhile (fun c => !netlocStop c))).2⟩) := by
  have hprefix : noUnsafe sch := by
    rcases hsch with h | h <;> subst h <;> unfold noUnsafe <;> decide
  have hstrip :
      stripUnsafe (sch ++ ':' :: '/' :: '/' :: r) =
        sch ++ ':' :: '/' :: '/' :: r := by
    apply stripUnsafe_eq_self
    intro c hc
    rcases List.mem_append.mp hc with h1 | h1
    · exact hprefix c h1
    · rcases List.mem_cons.mp h1 with h2 | h2
      · subst h2; decide
      · rcases List.mem_cons.mp h2 with h3 | h3
        · subst h3; decide
        · rcases List.mem_cons.mp h3 with h4 | h4
          · subst h4; decide
          · exact hfree c h4
  have hscheme :
      splitSchemePart (sch ++ ':' :: '/' :: '/' :: r) =
        (sch, '/' :: '/' :: r) := by
    apply splitSchemePart_httpish
    · rcases hsch with h | h <;> subst h <;> decide
    · rcases hsch with h | h <;> subst h <;>
        exact ⟨by decide, by decide, by decide⟩
    · rcases hsch with h | h <;> subst h <;> decide
  unfold pyUrlparse
  simp only [hstrip, hscheme, splitNetlocPart_slashes]

theorem getUrlSignature_some {url : List Char} {parsed : UrlParts}
    (h : pyUrlparse url = some parsed) :
    getUrlSignature url =
      (if ((splitOnChar '&'
            (match breakAtChar '#' url with
             | some p =>
               match breakAtChar '?' (upToFirst '#' p.2) with
               | some q => upToFirst '?' q.2
               | none => parsed.query
             | none => parsed.query)).filterMap sigParamOf) = [] then
        parsed.scheme ++ ':' :: '/' :: '/' :: (parsed.netloc ++ parsed.path)
      else
        (parsed.scheme ++ ':' :: '/' :: '/' ::
          (parsed.netloc ++ parsed.path)) ++ '?' ::
            joinSep '&' ((splitOnChar '&'
              (match breakAtChar '#' url with
               | some p =>
                 match breakAtChar '?' (upToFirst '#' p.2) with
                 | some q => upToFirst '?' q.2
                 | none => parsed.query
               | none => parsed.query)).filterMap sigParamOf)) := by
  unfold getUrlSignature
  rw [h]

theorem not_mem_httpish {x : Char} {sch r : List Char}
    (hs : x ∉ sch) (h1 : x ≠ ':') (h2 : x ≠ '/') (hr : x ∉ r) :
    x ∉ sch ++ ':' :: '/' :: '/' :: r := by
  intro hm
  rcases List.mem_append.mp hm with h | h
  · exact hs h
  · rcases List.mem_cons.mp h with h | h
    · exact h1 h
    · rcases List.mem_cons.mp h with h | h
      · exact h2 h
      · rcases List.mem_cons.mp h with h | h
        · exact h2 h
        · exact hr h

theorem getUrlSignature_canonical {sch n p : List Char} {ps : List (List Char)}
    (h : SigShape sch n p ps) :
    getUrlSignature (mkSigUrl sch n p ps) = mkSigUrl sch n p ps := by
  obtain ⟨hsch, hn, hbr, hp1, hp2, hp3, hp4, hnfree, hpfree, hps⟩ := h
  have hsch_no_hash : '#' ∉ sch := by
    rcases hsch with h | h <;> subst h <;> decide
  have hn_no_hash : '#' ∉ n := fun hm => absurd (hn _ hm) (by decide)
  have hn_all : ∀ y ∈ n, (fun c => !netlocStop c) y = true := fun y hy => by
    simp [hn y hy]
  have hjn_no_hash : '#' ∉ joinSep '&' ps := by
    intro hm
    rcases joinSep_mem hm with h | ⟨e, he, hxe⟩
    · exact absurd h (by decide)
    · obtain ⟨nm, he2, -, -, -, hnm_hash, -⟩ := hps e he
      rw [he2] at hxe
      rcases List.mem_append.mp hxe with h | h
      · exact hnm_hash h
      · exact absurd (List.mem_singleton.mp h) (by decide)
  have hjn_free : noUnsafe (joinSep '&' ps) := by
    intro x hx
    rcases joinSep_mem hx with h | ⟨e, he, hxe⟩
    · subst h; decide
    · obtain ⟨nm, he2, -, -, -, -, hnm_free⟩ := hps e he
      rw [he2] at hxe
      rcases List.mem_append.mp hxe with h | h
      · exact hnm_free x h
      · rw [List.mem_singleton.mp h]; decide
  have hps_amp : ∀ e ∈ ps, '&' ∉ e := by
    intro e he hm
    obtain ⟨nm, he2, -, -, hnm_amp, -, -⟩ := hps e he
    rw [he2] at hm
    rcases List.mem_append.mp hm with h | h
    · exact hnm_amp h
    · exact absurd (List.mem_singleton.mp h) (by decide)
  have hnp_take : (n ++ p).takeWhile (fun c => !netlocStop c) = n ∧
      (n ++ p).dropWhile (fun c => !netlocStop c) = p := by
    rcases hp3 with hpe | ⟨t, hpt⟩
    · subst hpe
      rw [List.append_nil]
      exact takeWhile_of_all hn_all
    · subst hpt
      exact takeWhile_append_stop '/' t hn_all (by decide)
  by_cases hpse : ps = []
  · subst hpse
    have hmk : mkSigUrl sch n p [] =
        sch ++ ':' :: '/' :: '/' :: (n ++ p) := by
      unfold mkSigUrl
      rw [if_pos rfl, List.append_nil]
    have hrfree : noUnsafe (n ++ p) := by
      intro c hc
      rcases List.mem_append.mp hc with h | h
      · exact hnfree c h
      · exact hpfree c h
    have hparse : pyUrlparse (sch ++ ':' :: '/' :: '/' :: (n ++ p)) =
        some ⟨sch, n, p, (pathOfRaw p).2, [], []⟩ := by
      rw [pyUrlparse_httpish sch (n ++ p) hsch hrfree]
      rw [hnp_take.1, hnp_take.2, if_neg hbr]
      rw [splitFirst_of_not_mem hp2]
      simp only [splitFirst_of_not_mem hp1, hp4]
    have hno_hash : '#' ∉ sch ++ ':' :: '/' :: '/' :: (n ++ p) := by
      apply not_mem_httpish hsch_no_hash (by decide) (by decide)
      intro hm
      rcases List.mem_append.mp hm with h | h
      · exact hn_no_hash h
      · exact hp2 h
    rw [hmk, getUrlSignature_some hparse,
      breakAtChar_of_not_mem hno_hash]
    simp [splitOnChar, sigParamOf]
  · have hmk : mkSigUrl sch n p ps =
        sch ++ ':' :: '/' :: '/' :: ((n ++ p) ++ '?' :: joinSep '&' ps) := by
      unfold mkSigUrl
      rw [if_neg hpse]
      simp [List.append_assoc]
    have hrfree : noUnsafe ((n ++ p) ++ '?' :: joinSep '&' ps) := by
      intro c hc
      rcases List.mem_append.mp hc with h | h
      · rcases List.mem_append.mp h with h | h
        · exact hnfree c h
        · exact hpfree c h
      · rcases List.mem_cons.mp h with h | h
        · subst h; decide
        · exact hjn_free c h
    have htake :
        ((n ++ p) ++ '?' :: joinSep '&' ps).takeWhile
          (fun c => !netlocStop c) = n ∧
        ((n ++ p) ++ '?' :: joinSep '&' ps).dropWhile
          (fun c => !netlocStop c) = p ++ '?' :: joinSep '&' ps := by
      have hstep := takeWhile_append_stopped
        (P := fun c => !netlocStop c) (x := '?')
        (n ++ p) (joinSep '&' ps) (by decide)
      refine ⟨by rw [hstep.1, hnp_take.1], ?_⟩
      rw [hstep.2, hnp_take.2]
    have hpq_no_hash : '#' ∉ p ++ '?' :: joinSep '&' ps := by
      intro hm
      rcases List.mem_append.mp hm with h | h
      · exact hp2 h
      · rcases List.mem_cons.mp h with h | h
        · exact absurd h (by decide)
        · exact hjn_no_hash h
    have hparse : pyUrlparse
        (sch ++ ':' :: '/' :: '/' :: ((n ++ p) ++ '?' :: joinSep '&' ps)) =
        some ⟨sch, n, p, (pathOfRaw p).2, joinSep '&' ps, []⟩ := by
      rw [pyUrlparse_httpish sch _ hsch hrfree]
      rw [htake.1, htake.2, if_neg hbr]
      rw [splitFirst_of_not_mem hpq_no_hash]
      simp only [splitFirst_append _ hp1, hp4]
    have hno_hash :
        '#' ∉ sch ++ ':' :: '/' :: '/' :: ((n ++ p) ++ '?' :: joinSep '&' ps) := by
      apply not_mem_httpish hsch_no_hash (by decide) (by decide)
      intro hm
      rcases List.mem_append.mp hm with h | h
      · rcases List.mem_append.mp h with h | h
        · exact hn_no_hash h
        · exact hp2 h
      · rcases List.mem_cons.mp h with h | h
        · exact absurd h (by decide)
        · exact hjn_no_hash h
    have hsplit_q : splitOnChar '&' (joinSep '&' ps) = ps :=
      splitOnChar_joinSep ps hpse hps_amp
    have hfm : ps.filterMap sigParamOf = ps := by
      apply filterMap_sigParamOf_names
      intro e he
      obtain ⟨nm, he2, hne, hnm, -, -, -⟩ := hps e he
      exact ⟨nm, he2, hne, hnm⟩
    rw [hmk, getUrlSignature_some hparse, breakAtChar_of_not_mem hno_hash]
    simp only [hsplit_q, hfm, if_neg hpse]
    simp [List.append_assoc]

theorem noUnsafe_httpish {sch r : List Char}
    (hsch : sch = chars "http" ∨ sch = chars "https")
    (hfree : noUnsafe r) : noUnsafe (sch ++ ':' :: '/' :: '/' :: r) := by
  have hpre : noUnsafe sch := by
    rcases hsch with h | h <;> subst h <;> unfold noUnsafe <;> decide
  intro c hc
  rcases List.mem_append.mp hc with h1 | h1
  · exact hpre c h1
  · rcases List.mem_cons.mp h1 with h2 | h2
    · subst h2; decide
    · rcases List.mem_cons.mp h2 with h3 | h3
      · subst h3; decide
      · rcases List.mem_cons.mp h3 with h4 | h4
        · subst h4; decide
        · exact hfree c h4

theorem getUrlSignature_shape {sch r : List Char} {parsed : UrlParts}
    (hsch : sch = chars "http" ∨ sch = chars "https")
    (hfree : noUnsafe r)
    (hp : pyUrlparse (sch ++ ':' :: '/' :: '/' :: r) = some parsed) :
    ∃ n p ps, SigShape sch n p ps ∧
      getUrlSignature (sch ++ ':' :: '/' :: '/' :: r) = mkSigUrl sch n p ps := by
  have hp0 := hp
  rw [pyUrlparse_httpish sch r hsch hfree] at hp
  set n := r.takeWhile (fun c => !netlocStop c) with hn_def
  set r2 := r.dropWhile (fun c => !netlocStop c) with hr2_def
  set fr := splitFirst '#' r2 with hfr_def
  set qu := splitFirst '?' fr.1 with hqu_def
  set p := (pathOfRaw qu.1).1 with hp_def
  by_cases hbr : ('[' ∈ n ∧ ']' ∉ n) ∨ (']' ∈ n ∧ '[' ∉ n)
  · rw [if_pos hbr] at hp
    cases hp
  rw [if_neg hbr] at hp
  have hparsed := Option.some.inj hp
  -- invariants that do not depend on the query
  have hn_inv : ∀ c ∈ n, netlocStop c = false := by
    intro c hc
    have := (mem_takeWhile_pred (hn_def ▸ hc)).1
    simpa using this
  have hfr1_no_hash : '#' ∉ fr.1 := by
    rw [hfr_def]
    exact splitFirst_fst_not_mem '#' r2
  have hqu1_sub_fr1 : ∀ c, c ∈ qu.1 → c ∈ fr.1 := by
    intro c hc
    rw [hqu_def] at hc
    exact splitFirst_fst_subset hc
  have hqu1_no_q : '?' ∉ qu.1 := by
    rw [hqu_def]
    exact splitFirst_fst_not_mem '?' fr.1
  have hp_sub_qu1 : ∀ c, c ∈ p → c ∈ qu.1 := by
    intro c hc
    rw [hp_def] at hc
    exact pathOfRaw_fst_subset hc
  have hsub_r : ∀ c, c ∈ fr.1 → c ∈ r := by
    intro c hc
    rw [hfr_def] at hc
    have hc2 := splitFirst_fst_subset hc
    rw [hr2_def] at hc2
    exact mem_dropWhile_subset hc2
  have hp1 : '?' ∉ p := fun hm => hqu1_no_q (hp_sub_qu1 _ hm)
  have hp2 : '#' ∉ p := fun hm => hfr1_no_hash (hqu1_sub_fr1 _ (hp_sub_qu1 _ hm))
  have hqu1_shape : qu.1 = [] ∨ ∃ t, qu.1 = '/' :: t := by
    rcases dropWhile_head_not (fun c => !netlocStop c) r with hD | ⟨c, t, hD, hPc⟩
    · rw [← hr2_def] at hD
      left
      rw [hqu_def, hfr_def, hD,
        splitFirst_of_not_mem (List.not_mem_nil '#')]
      rw [splitFirst_of_not_mem (List.not_mem_nil '?')]
    · rw [← hr2_def] at hD
      have hc : (c = '/' ∨ c = '?') ∨ c = '#' := by
        have hstop : netlocStop c = true := by simpa using hPc
        simpa [netlocStop] using hstop
      rcases hc with (hc | hc) | hc <;> subst hc
      · right
        rw [hqu_def, hfr_def, hD, splitFirst_cons_ne t (by decide)]
        rw [splitFirst_cons_ne _ (by decide)]
        exact ⟨_, rfl⟩
      · left
        rw [hqu_def, hfr_def, hD, splitFirst_cons_ne t (by decide),
          splitFirst_cons_self]
      · left
        rw [hqu_def, hfr_def, hD, splitFirst_cons_self,
          splitFirst_of_not_mem (List.not_mem_nil '?')]
  have hp3 : p = [] ∨ ∃ t, p = '/' :: t := by
    rw [hp_def]
    exact pathOfRaw_shape qu.1 hqu1_shape
  have hp4 : (pathOfRaw p).1 = p := by
    rw [hp_def]
    exact pathOfRaw_idem qu.1
  have hnfree : noUnsafe n := by
    intro c hc
    exact hfree c (mem_takeWhile_pred (hn_def ▸ hc)).2
  have hpfree : noUnsafe p := by
    intro c hc
    exact hfree c (hsub_r _ (hqu1_sub_fr1 _ (hp_sub_qu1 _ hc)))
  have hsfree : noUnsafe (sch ++ ':' :: '/' :: '/' :: r) :=
    noUnsafe_httpish hsch hfree
  -- the signature value
  have hval := getUrlSignature_some hp0
  rw [← hparsed] at hval
  dsimp only at hval
  have main : ∀ Q : List Char, '#' ∉ Q → noUnsafe Q →
      getUrlSignature (sch ++ ':' :: '/' :: '/' :: r) =
        (if (splitOnChar '&' Q).filterMap sigParamOf = [] then
          sch ++ ':' :: '/' :: '/' :: (n ++ p)
        else
          (sch ++ ':' :: '/' :: '/' :: (n ++ p)) ++ '?' ::
            joinSep '&' ((splitOnChar '&' Q).filterMap sigParamOf)) →
      ∃ n' p' ps, SigShape sch n' p' ps ∧
        getUrlSignature (sch ++ ':' :: '/' :: '/' :: r) =
          mkSigUrl sch n' p' ps := by
    intro Q hQh hQf hvalQ
    refine ⟨n, p, (splitOnChar '&' Q).filterMap sigParamOf,
      ⟨hsch, hn_inv, hbr, hp1, hp2, hp3, hp4, hnfree, hpfree,
        sigParams_inv hQh hQf⟩, ?_⟩
    rw [hvalQ]
    unfold mkSigUrl
    by_cases hqe : (splitOnChar '&' Q).filterMap sigParamOf = [] <;>
      simp [hqe, List.append_assoc]
  cases hhash : breakAtChar '#' (sch ++ ':' :: '/' :: '/' :: r) with
  | none =>
    rw [hhash] at hval
    refine main qu.2 ?_ ?_ hval
    · intro hm
      rw [hqu_def] at hm
      exact hfr1_no_hash (splitFirst_snd_subset hm)
    · intro c hc
      rw [hqu_def] at hc
      exact hfree c (hsub_r _ (splitFirst_snd_subset hc))
  | some pr =>
    rw [hhash] at hval
    dsimp only at hval
    have hpr2_sub : ∀ c, c ∈ pr.2 → c ∈ sch ++ ':' :: '/' :: '/' :: r := by
      intro c hc
      obtain ⟨a, b⟩ := pr
      have hsp := breakAtChar_spec hhash
      rw [hsp.1]
      exact List.mem_append_right _ (List.mem_cons_of_mem _ hc)
    cases hqq : breakAtChar '?' (upToFirst '#' pr.2) with
    | none =>
      rw [hqq] at hval
      dsimp only at hval
      refine main qu.2 ?_ ?_ hval
      · intro hm
        rw [hqu_def] at hm
        exact hfr1_no_hash (splitFirst_snd_subset hm)
      · intro c hc
        rw [hqu_def] at hc
        exact hfree c (hsub_r _ (splitFirst_snd_subset hc))
    | some qq =>
      rw [hqq] at hval
      dsimp only at hval
      have hseg := breakAtChar_spec hqq
      refine main (upToFirst '?' qq.2) ?_ ?_ hval
      · intro hm
        have h1 : '#' ∈ qq.2 := upToFirst_subset hm
        have h2 : '#' ∈ upToFirst '#' pr.2 := by
          rw [hseg.1]
          exact List.mem_append_right _ (List.mem_cons_of_mem _ h1)
        exact upToFirst_not_mem '#' pr.2 h2
      · intro c hc
        have h1 : c ∈ qq.2 := upToFirst_subset hc
        have h2 : c ∈ upToFirst '#' pr.2 := by
          rw [hseg.1]
          exact List.mem_append_right _ (List.mem_cons_of_mem _ h1)
        exact hsfree c (hpr2_sub _ (upToFirst_subset h2))

theorem getUrlSignature_idem {s : List Char} (hfree : noUnsafe s)
    (hpre : startsWithChars (chars "http://") s = true ∨
            startsWithChars (chars "https://") s = true) :
    getUrlSignature (getUrlSignature s) = getUrlSignature s := by
  have hdecomp : ∃ sch r, (sch = chars "http" ∨ sch = chars "https") ∧
      s = sch ++ ':' :: '/' :: '/' :: r := by
    rcases hpre with h | h
    · obtain ⟨r, hr⟩ := startsWithChars_iff.mp h
      exact ⟨chars "http", r, Or.inl rfl, by rw [hr]; rfl⟩
    · obtain ⟨r, hr⟩ := startsWithChars_iff.mp h
      exact ⟨chars "https", r, Or.inr rfl, by rw [hr]; rfl⟩
  obtain ⟨sch, r, hs, hdec⟩ := hdecomp
  subst hdec
  have hrfree : noUnsafe r := by
    intro c hc
    exact hfree c (List.mem_append_right _
      (List.mem_cons_of_mem _ (List.mem_cons_of_mem _
        (List.mem_cons_of_mem _ hc))))
  cases hp : pyUrlparse (sch ++ ':' :: '/' :: '/' :: r) with
  | none =>
    have hsig : getUrlSignature (sch ++ ':' :: '/' :: '/' :: r) =
        sch ++ ':' :: '/' :: '/' :: r := by
      unfold getUrlSignature
      rw [hp]
    rw [hsig, hsig]
  | some parsed =>
    obtain ⟨n, p, ps, hshape, hsig⟩ := getUrlSignature_shape hs hrfree hp
    rw [hsig, getUrlSignature_canonical hshape]

theorem sig_of_base_query (sch base q : List Char)
    (hsch : sch = chars "http" ∨ sch = chars "https")
    (hb1 : '?' ∉ base) (hb2 : '#' ∉ base) (hb3 : '[' ∉ base)
    (hb4 : ']' ∉ base) (hbf : noUnsafe base)
    (hq : '#' ∉ q) (hqf : noUnsafe q) :
    getUrlSignature (sch ++ ':' :: '/' :: '/' :: (base ++ '?' :: q)) =
      (if (splitOnChar '&' q).filterMap sigParamOf = [] then
        sch ++ ':' :: '/' :: '/' ::
          (base.takeWhile (fun c => !netlocStop c) ++
            (pathOfRaw (base.dropWhile (fun c => !netlocStop c))).1)
      else
        (sch ++ ':' :: '/' :: '/' ::
          (base.takeWhile (fun c => !netlocStop c) ++
            (pathOfRaw (base.dropWhile (fun c => !netlocStop c))).1)) ++
          '?' :: joinSep '&' ((splitOnChar '&' q).filterMap sigParamOf)) := by
  have hrfree : noUnsafe (base ++ '?' :: q) := by
    intro c hc
    rcases List.mem_append.mp hc with h | h
    · exact hbf c h
    · rcases List.mem_cons.mp h with h | h
      · subst h; decide
      · exact hqf c h
  have htake := takeWhile_append_stopped
    (P := fun c => !netlocStop c) (x := '?') base q (by decide)
  have hdw_no_q : '?' ∉ base.dropWhile (fun c => !netlocStop c) :=
    fun hm => hb1 (mem_dropWhile_subset hm)
  have hdwq_no_hash :
      '#' ∉ base.dropWhile (fun c => !netlocStop c) ++ '?' :: q := by
    intro hm
    rcases List.mem_append.mp hm with h | h
    · exact hb2 (mem_dropWhile_subset h)
    · rcases List.mem_cons.mp h with h | h
      · exact absurd h (by decide)
      · exact hq h
  have hbr : ¬(('[' ∈ base.takeWhile (fun c => !netlocStop c) ∧
        ']' ∉ base.takeWhile (fun c => !netlocStop c)) ∨
      (']' ∈ base.takeWhile (fun c => !netlocStop c) ∧
        '[' ∉ base.takeWhile (fun c => !netlocStop c))) := by
    rintro (⟨h1, -⟩ | ⟨h1, -⟩)
    · exact hb3 (mem_takeWhile_pred h1).2
    · exact hb4 (mem_takeWhile_pred h1).2
  have hparse : pyUrlparse (sch ++ ':' :: '/' :: '/' :: (base ++ '?' :: q)) =
      some ⟨sch, base.takeWhile (fun c => !netlocStop c),
        (pathOfRaw (base.dropWhile (fun c => !netlocStop c))).1,
        (pathOfRaw (base.dropWhile (fun c => !netlocStop c))).2, q, []⟩ := by
    rw [pyUrlparse_httpish sch _ hsch hrfree]
    rw [htake.1, htake.2, if_neg hbr]
    rw [splitFirst_of_not_mem hdwq_no_hash]
    simp only [splitFirst_append q hdw_no_q]
  have hno_hash :
      '#' ∉ sch ++ ':' :: '/' :: '/' :: (base ++ '?' :: q) := by
    apply not_mem_httpish ?_ (by decide) (by decide) ?_
    · rcases hsch with h | h <;> subst h <;> decide
    · intro hm
      rcases List.mem_append.mp hm with h | h
      · exact hb2 h
      · rcases List.mem_cons.mp h with h | h
        · exact absurd h (by decide)
        · exact hq h
  rw [getUrlSignature_some hparse, breakAtChar_of_not_mem hno_hash]

theorem filterMap_sig_pairs {ns : List (List Char)} :
    ∀ {vs : List (List Char)}, vs.length = ns.length →
      (∀ nm ∈ ns, nm ≠ [] ∧ '=' ∉ nm) →
      ((ns.zip vs).map (fun nv => nv.1 ++ '=' :: nv.2)).filterMap
        sigParamOf = ns.map (· ++ ['=']) := by
  induction ns with
  | nil => intro vs _ _; simp
  | cons nm ns' ih =>
    intro vs hlen hns
    cases vs with
    | nil => simp at hlen
    | cons v vs' =>
      simp only [List.zip_cons_cons, List.map_cons, List.filterMap_cons]
      obtain ⟨hne, hnm⟩ := hns nm (List.mem_cons_self _ _)
      rw [sigParamOf_name v hne hnm]
      rw [ih (by simpa using hlen)
        (fun f hf => hns f (List.mem_cons_of_mem _ hf))]

theorem filterMap_sigParamOf_valueless {ps1 ps2 : List (List Char)}
    (h : ValuelessInsert ps1 ps2) :
    ps2.filterMap sigParamOf = ps1.filterMap sigParamOf := by
  induction h with
  | nil => rfl
  | keep _ ih => simp only [List.filterMap_cons, ih]
  | @extra x xs ys hx _ ih =>
    have hnone : sigParamOf x = none := by
      unfold sigParamOf
      rw [if_neg hx]
    simp only [List.filterMap_cons, hnone, ih]

/-- C8 counterexample: `validate_url` accepts `http%3A//h?a=b` (it validates
the percent-decoded text), but `get_url_signature` of the raw text is not
idempotent: the signature is `://http%3A//h?a=` and re-signing prepends
another `://`. -/
theorem signature_not_idempotent_on_encoded_scheme :
    validateUrl (chars "http%3A//h?a=b") = true ∧
    getUrlSignature (getUrlSignature (chars "http%3A//h?a=b")) ≠
      getUrlSignature (chars "http%3A//h?a=b") := by
  exact ⟨by decide, by decide⟩

/-- C8 amended: `get_url_signature` is idempotent on every URL whose raw
text begins with `http://` or `https://` (and contains none of the control
characters `urlsplit` strips); it is stable under changes of the values
assigned to the same parameter names in the same order; and it is not
stable under reordering of parameter names. -/
theorem signature_algebraic_laws :
    (∀ s : List Char, noUnsafe s →
      (startsWithChars (chars "http://") s = true ∨
       startsWithChars (chars "https://") s = true) →
      getUrlSignature (getUrlSignature s) = getUrlSignature s) ∧
    (∀ (sch base : List Char) (ns vs vs' : List (List Char)),
      (sch = chars "http" ∨ sch = chars "https") →
      '?' ∉ base → '#' ∉ base → '[' ∉ base → ']' ∉ base → noUnsafe base →
      ns ≠ [] →
      (∀ nm ∈ ns, nm ≠ [] ∧ '=' ∉ nm ∧ '&' ∉ nm ∧ '#' ∉ nm ∧ noUnsafe nm) →
      vs.length = ns.length → vs'.length = ns.length →
      (∀ v ∈ vs, '&' ∉ v ∧ '#' ∉ v ∧ noUnsafe v) →
      (∀ v ∈ vs', '&' ∉ v ∧ '#' ∉ v ∧ noUnsafe v) →
      getUrlSignature (mkValUrl sch base (ns.zip vs)) =
        getUrlSignature (mkValUrl sch base (ns.zip vs'))) ∧
    getUrlSignature (chars "http://h/p?a=1&b=2") ≠
      getUrlSignature (chars "http://h/p?b=2&a=1") := by
  refine ⟨fun s hfree hpre => getUrlSignature_idem hfree hpre, ?_, by decide⟩
  intro sch base ns vs vs' hsch hb1 hb2 hb3 hb4 hbf hns0 hns hlen hlen'
    hvs hvs'
  have key : ∀ ws : List (List Char), ws.length = ns.length →
      (∀ v ∈ ws, '&' ∉ v ∧ '#' ∉ v ∧ noUnsafe v) →
      getUrlSignature (mkValUrl sch base (ns.zip ws)) =
        (if ns.map (· ++ ['=']) = [] then
          sch ++ ':' :: '/' :: '/' ::
            (base.takeWhile (fun c => !netlocStop c) ++
              (pathOfRaw (base.dropWhile (fun c => !netlocStop c))).1)
        else
          (sch ++ ':' :: '/' :: '/' ::
            (base.takeWhile (fun c => !netlocStop c) ++
              (pathOfRaw (base.dropWhile (fun c => !netlocStop c))).1)) ++
            '?' :: joinSep '&' (ns.map (· ++ ['=']))) := by
    intro ws hwlen hws
    have hmk : mkValUrl sch base (ns.zip ws) =
        sch ++ ':' :: '/' :: '/' :: (base ++ '?' ::
          joinSep '&' ((ns.zip ws).map (fun nv => nv.1 ++ '=' :: nv.2))) := by
      unfold mkValUrl
      simp [List.append_assoc]
    have hpiece : ∀ e ∈ (ns.zip ws).map (fun nv => nv.1 ++ '=' :: nv.2),
        '&' ∉ e ∧ '#' ∉ e ∧ noUnsafe e := by
      intro e he
      obtain ⟨nv, hnv, rfl⟩ := List.mem_map.mp he
      have hn1 : nv.1 ∈ ns := (List.of_mem_zip hnv).1
      have hn2 : nv.2 ∈ ws := (List.of_mem_zip hnv).2
      obtain ⟨-, -, hamp, hhash, hfree1⟩ := hns nv.1 hn1
      obtain ⟨hamp2, hhash2, hfree2⟩ := hws nv.2 hn2
      refine ⟨?_, ?_, ?_⟩
      · intro hm
        rcases List.mem_append.mp hm with h | h
        · exact hamp h
        · rcases List.mem_cons.mp h with h | h
          · exact absurd h (by decide)
          · exact hamp2 h
      · intro hm
        rcases List.mem_append.mp hm with h | h
        · exact hhash h
        · rcases List.mem_cons.mp h with h | h
          · exact absurd h (by decide)
          · exact hhash2 h
      · intro c hc
        rcases List.mem_append.mp hc with h | h
        · exact hfree1 c h
        · rcases List.mem_cons.mp h with h | h
          · subst h; decide
          · exact hfree2 c h
    have hq : '#' ∉ joinSep '&'
        ((ns.zip ws).map (fun nv => nv.1 ++ '=' :: nv.2)) := by
      intro hm
      rcases joinSep_mem hm with h | ⟨e, he, hxe⟩
      · exact absurd h (by decide)
      · exact (hpiece e he).2.1 hxe
    have hqf : noUnsafe (joinSep '&'
        ((ns.zip ws).map (fun nv => nv.1 ++ '=' :: nv.2))) := by
      intro c hc
      rcases joinSep_mem hc with h | ⟨e, he, hxe⟩
      · subst h; decide
      · exact (hpiece e he).2.2 c hxe
    have hpne : (ns.zip ws).map (fun nv => nv.1 ++ '=' :: nv.2) ≠ [] := by
      cases ns with
      | nil => exact absurd rfl hns0
      | cons n0 ns1 =>
        cases ws with
        | nil => simp at hwlen
        | cons w0 ws1 => simp
    rw [hmk, sig_of_base_query sch base _ hsch hb1 hb2 hb3 hb4 hbf hq hqf]
    rw [splitOnChar_joinSep _ hpne (fun e he => (hpiece e he).1)]
    rw [filterMap_sig_pairs hwlen
      (fun nm hnm => ⟨(hns nm hnm).1, (hns nm hnm).2.1⟩)]
  rw [key vs hlen hvs, key vs' hlen' hvs']

/-- Witness for C8 at concrete inputs: idempotence on
`http://h/p?a=1&b=2`, and equal signatures when a parameter value changes
from `1` to `2`. -/
theorem signature_algebraic_laws_witness :
    getUrlSignature (getUrlSignature (chars "http://h/p?a=1&b=2")) =
      getUrlSignature (chars "http://h/p?a=1&b=2") ∧
    getUrlSignature (mkValUrl (chars "http") (chars "h/p")
        ([chars "a"].zip [chars "1"])) =
      getUrlSignature (mkValUrl (chars "http") (chars "h/p")
        ([chars "a"].zip [chars "2"])) :=
  ⟨signature_algebraic_laws.1 (chars "http://h/p?a=1&b=2") (by decide)
      (Or.inl (by decide)),
   signature_algebraic_laws.2.1 (chars "http") (chars "h/p")
      [chars "a"] [chars "1"] [chars "2"] (Or.inl rfl)
      (by decide) (by decide) (by decide) (by decide) (by decide)
      (by decide) (by decide) (by decide) (by decide)
      (by decide) (by decide)⟩

/-- C10: `get_url_signature` drops every query parameter without an `=`, so
two URLs differing only by inserted valueless parameters share a signature,
and `load_files` collapses the later one as a duplicate (it is never
scanned). -/
theorem valueless_params_collapse :
    (∀ (sch base : List Char) (ps1 ps2 : List (List Char)),
      (sch = chars "http" ∨ sch = chars "https") →
      '?' ∉ base → '#' ∉ base → '[' ∉ base → ']' ∉ base → noUnsafe base →
      ps1 ≠ [] → ps2 ≠ [] →
      (∀ e ∈ ps1, '&' ∉ e ∧ '#' ∉ e ∧ noUnsafe e) →
      (∀ e ∈ ps2, '&' ∉ e ∧ '#' ∉ e ∧ noUnsafe e) →
      ValuelessInsert ps1 ps2 →
      getUrlSignature
          (sch ++ ':' :: '/' :: '/' :: (base ++ '?' :: joinSep '&' ps1)) =
        getUrlSignature
          (sch ++ ':' :: '/' :: '/' :: (base ++ '?' :: joinSep '&' ps2))) ∧
    getUrlSignature (chars "https://a/x?u=1") =
      getUrlSignature (chars "https://a/x?u=1&flag") ∧
    loadFilesDedup [chars "https://a/x?u=1", chars "https://a/x?u=1&flag"]
      [] = ([chars "https://a/x?u=1"], 1) := by
  refine ⟨?_, by decide, by decide⟩
  intro sch base ps1 ps2 hsch hb1 hb2 hb3 hb4 hbf h1ne h2ne hp1 hp2 hins
  have hq1 : '#' ∉ joinSep '&' ps1 := by
    intro hm
    rcases joinSep_mem hm with h | ⟨e, he, hxe⟩
    · exact absurd h (by decide)
    · exact (hp1 e he).2.1 hxe
  have hq1f : noUnsafe (joinSep '&' ps1) := by
    intro c hc
    rcases joinSep_mem hc with h | ⟨e, he, hxe⟩
    · subst h; decide
    · exact (hp1 e he).2.2 c hxe
  have hq2 : '#' ∉ joinSep '&' ps2 := by
    intro hm
    rcases joinSep_mem hm with h | ⟨e, he, hxe⟩
    · exact absurd h (by decide)
    · exact (hp2 e he).2.1 hxe
  have hq2f : noUnsafe (joinSep '&' ps2) := by
    intro c hc
    rcases joinSep_mem hc with h | ⟨e, he, hxe⟩
    · subst h; decide
    · exact (hp2 e he).2.2 c hxe
  rw [sig_of_base_query sch base _ hsch hb1 hb2 hb3 hb4 hbf hq1 hq1f,
    sig_of_base_query sch base _ hsch hb1 hb2 hb3 hb4 hbf hq2 hq2f]
  rw [splitOnChar_joinSep ps1 h1ne (fun e he => (hp1 e he).1),
    splitOnChar_joinSep ps2 h2ne (fun e he => (hp2 e he).1)]
  rw [filterMap_sigParamOf_valueless hins]

/-- Witness for C10: `?u=1` against `?u=1&flag`. -/
theorem valueless_params_collapse_witness :
    getUrlSignature (chars "https" ++ ':' :: '/' :: '/' ::
        (chars "a/x" ++ '?' :: joinSep '&' [chars "u=1"])) =
      getUrlSignature (chars "https" ++ ':' :: '/' :: '/' ::
        (chars "a/x" ++ '?' :: joinSep '&' [chars "u=1", chars "flag"])) :=
  valueless_params_collapse.1 (chars "https") (chars "a/x")
    [chars "u=1"] [chars "u=1", chars "flag"] (Or.inr rfl)
    (by decide) (by decide) (by decide) (by decide) (by decide)
    (by decide) (by decide) (by decide) (by decide)
    (ValuelessInsert.keep (ValuelessInsert.extra (by decide)
      ValuelessInsert.nil))
